import Mathlib

/-!
# ENTC mentorship portal: filter, sort, pagination and URL-state logic

A shallow embedding of `src/script.js`.

Modelling conventions

* A JavaScript string is a `Str`, a list of characters.
* The methods that follow the Unicode tables of the platform are parameters:
  `lower` is `String.prototype.toLowerCase`, `canon` is the case folding of a
  regular expression with the flag `i`, `lc` is
  `String.prototype.localeCompare`.  The examples, whose text is ASCII, use
  `asciiLowerCase` and `codePointCompare`.
* `state.page` is a `JSNat`, a non-negative integer or `Infinity`.  `parseInt`
  rounds the integer it reads to a double and `String` writes the shortest
  numeral that reads back as the number.  The sum `state.page += 1` and the
  product `state.page * PAGE_SIZE` are exact, as they are in the code for the
  numbers below `2^53`.
* A `Set` is a list without duplicates, in insertion order.
* A property that can be `undefined` is an `Option`.
* `localStorage` and `location.search` are explicit arguments: the favourites
  set is a list of ids, the query string is its list of decoded name/value
  pairs (what `URLSearchParams` holds).
* The global `state` object is an explicit `UIState` value; an event handler is
  a function from `UIState` to `UIState`.
-/

namespace MentorPortal

/-! ## Strings -/

/-- A JavaScript string. -/
abbrev Str := List Char

/-- The code points matched by `\s` and removed by `trim`: white space and
line terminators. -/
def isWhitespace (c : Char) : Bool :=
  let n := c.toNat
  n == 9 || n == 10 || n == 11 || n == 12 || n == 13 || n == 32 || n == 160 ||
  n == 5760 || (8192 ≤ n && n ≤ 8202) || n == 8232 || n == 8233 || n == 8239 ||
  n == 8287 || n == 12288 || n == 65279

/-- Lower-casing of one ASCII character: `A` to `Z` go to `a` to `z`. -/
def lowerChar (c : Char) : Char :=
  if 65 ≤ c.toNat ∧ c.toNat ≤ 90 then Char.ofNat (c.toNat + 32) else c

/-- The method `toLowerCase` on ASCII text.  The method itself follows the
Unicode case conversion and is a parameter `lower` of every definition that
calls it; this is the value of that parameter in the examples, whose text is
ASCII. -/
def asciiLowerCase (s : Str) : Str := s.map lowerChar

/-- What the theorems on the search text use of the method `toLowerCase`: it
maps the empty string to itself, works on each side of a blank separately,
and leaves a single bar as it is.  (Unicode lower-casing maps code points one
by one, except for the capital sigma, whose image depends on the letters
around it up to the next character that is neither a letter nor
case-ignorable; a blank is such a character.) -/
def LowerCaseLaws (lower : Str → Str) : Prop :=
  lower [] = [] ∧
  (∀ a b : Str, lower (a ++ ' ' :: b) = lower a ++ ' ' :: lower b) ∧
  lower ['|'] = ['|']

/-- The method `trim`. -/
def trim (s : Str) : Str :=
  ((s.dropWhile isWhitespace).reverse.dropWhile isWhitespace).reverse

/-- The method `includes`: `t` occurs in `s` as a contiguous substring. -/
def includes (s t : Str) : Bool := s.tails.any (fun u => t.isPrefixOf u)

/-- The method `join` of an array of strings. -/
def join (sep : Str) (parts : List Str) : Str := sep.intercalate parts

/-- Scanner behind `splitWhitespace`: `cur` is the piece being read (reversed),
`inWs` tells that the previous character belonged to a separator. -/
def splitWhitespaceGo : Str → Bool → Str → List Str
  | cur, _, [] => [cur.reverse]
  | cur, inWs, c :: cs =>
    if isWhitespace c then
      if inWs then splitWhitespaceGo cur true cs
      else cur.reverse :: splitWhitespaceGo [] true cs
    else splitWhitespaceGo (c :: cur) false cs

/-- The call `s.split(/\s+/)`: cut at every maximal run of white space. -/
def splitWhitespace (s : Str) : List Str := splitWhitespaceGo [] false s

/-- The helper `uniq`: `Array.from(new Set(arr))`, first occurrences kept. -/
def uniq {α : Type} [DecidableEq α] : List α → List α
  | [] => []
  | x :: xs => x :: (uniq xs).filter (fun y => y ≠ x)

/-- `replaceAll` with a one-character pattern. -/
def replaceAll (c : Char) (by_ : Str) (s : Str) : Str :=
  s.flatMap (fun x => if x = c then by_ else [x])

/-- The helper `escapeHTML`. -/
def escapeHTML (s : Str) : Str :=
  replaceAll '\'' "&#039;".toList
    (replaceAll '"' "&quot;".toList
      (replaceAll '>' "&gt;".toList
        (replaceAll '<' "&lt;".toList
          (replaceAll '&' "&amp;".toList s))))

/-- The helper `normalize`: `String(x || "").toLowerCase()`. -/
def normalize (lower : Str → Str) (x : Str) : Str := lower x

/-- The helper `parseCSV`: split at commas, trim, drop empty pieces.  An absent
value (`null`) reads as the empty string. -/
def parseCSV (s : Option Str) : List Str :=
  (((s.getD []).splitOn ',').map trim).filter (fun x => !x.isEmpty)

/-- The helper `toCSV`. -/
def toCSV (arr : List Str) : Str := join [','] arr

/-! ## Numbers -/

/-- A JavaScript number that is a non-negative integer, or `Infinity`: the
values `state.page` can take. -/
inductive JSNat where
  | finite (n : Nat)
  | infinity
  deriving DecidableEq, Repr

/-- Numerals denote finite numbers. -/
instance instOfNatJSNat (n : Nat) : OfNat JSNat n := ⟨JSNat.finite n⟩

/-- Search of `doubleExponent`: the first `e`, counting up, with
`v < 2^(53 + e)`. -/
def doubleExponentFrom : Nat → Nat → Nat → Nat
  | 0, e, _ => e
  | fuel + 1, e, v => if v < 2 ^ (53 + e) then e else doubleExponentFrom fuel (e + 1) v

/-- The number of bits of `v` beyond the 53 bits of a significand, for
`v < 2^1024`. -/
def doubleExponent (v : Nat) : Nat := doubleExponentFrom 971 0 v

/-- The number nearest to the integer `v` among the doubles, the even
significand winning a tie, and `Infinity` when the rounding reaches `2^1024`.
Every integer below `2^53` is a double. -/
def roundToDouble (v : Nat) : JSNat :=
  if v < 2 ^ 53 then JSNat.finite v
  else if v >>> 1024 ≠ 0 then JSNat.infinity
  else
    let e := doubleExponent v
    let q := v / 2 ^ e
    let r := v % 2 ^ e
    let q' := if 2 ^ (e - 1) < r ∨ (r = 2 ^ (e - 1) ∧ q % 2 = 1) then q + 1 else q
    if e = 971 ∧ q' = 2 ^ 53 then JSNat.infinity else JSNat.finite (q' * 2 ^ e)

/-- The statement `state.page += 1`.  The sum is exact, as it is in the code
for every page below `2^53`; `Infinity` stays. -/
def JSNat.addOne : JSNat → JSNat
  | JSNat.finite n => JSNat.finite (n + 1)
  | JSNat.infinity => JSNat.infinity

/-- The product `state.page * PAGE_SIZE` with a positive integer. -/
def JSNat.times : JSNat → Nat → JSNat
  | JSNat.finite n, k => JSNat.finite (n * k)
  | JSNat.infinity, _ => JSNat.infinity

/-- The call `l.slice(0, limit)`. -/
def sliceTo {α : Type} (l : List α) : JSNat → List α
  | JSNat.finite n => l.take n
  | JSNat.infinity => l

/-- The decimal digits of an integer. -/
def decimalDigits (n : Nat) : Str := Nat.toDigits 10 n

/-- The numerals with `k` digits followed by `z` zeros that `String(x)`
considers: the multiples of `10^z` on either side of `x`, the nearer one
first and on a tie the even one, kept when they have `k` digits and denote a
number that rounds to `x`. -/
def digitCandidates (x k z : Nat) : List (Nat × Nat) :=
  let lo := x / 10 ^ z
  let hi := lo + 1
  let ordered :=
    if x - lo * 10 ^ z < hi * 10 ^ z - x then [lo, hi]
    else if hi * 10 ^ z - x < x - lo * 10 ^ z then [hi, lo]
    else if lo % 2 = 0 then [lo, hi] else [hi, lo]
  (ordered.filter (fun s =>
    10 ^ (k - 1) ≤ s ∧ s < 10 ^ k ∧ roundToDouble (s * 10 ^ z) = JSNat.finite x)).map
      (fun s => (s, z))

/-- The shortest numeral of `String(x)`: digits `s` and a count `z` of zeros
with `s * 10^z` rounding to `x`, `s` having as few digits as possible. -/
def shortestDigits (x : Nat) : Nat × Nat :=
  let nd := (decimalDigits x).length
  (((List.range nd).flatMap (fun i =>
    digitCandidates x (i + 1) (nd - (i + 1)) ++ digitCandidates x (i + 1) (nd - i))).head?).getD
      (x, 0)

/-- The conversion `String(x)` of a page number: the shortest numeral, written
out in full below `10^21` and with an exponent from there on. -/
def numberToString : JSNat → Str
  | JSNat.infinity => "Infinity".toList
  | JSNat.finite x =>
    if x = 0 then "0".toList
    else
      let sz := shortestDigits x
      let ds := decimalDigits sz.1
      if x < 10 ^ 21 then ds ++ List.replicate sz.2 '0'
      else
        (if ds.length = 1 then ds else ds.take 1 ++ '.' :: ds.drop 1) ++ "e+".toList ++
          decimalDigits (ds.length + sz.2 - 1)

/-! ## Data model -/

/-- A mentor record.  Every property but `id` may be missing. -/
structure Mentor where
  id : Nat
  name : Option Str := none
  role : Option Str := none
  org : Option Str := none
  interests : Option (List Str) := none
  availability : Option Str := none
  gradYear : Option Nat := none
  notes : Option Str := none
  deriving DecidableEq, Repr

/-- The UI state object `state`. -/
structure UIState where
  q : Str := []
  chips : List Str := []
  sort : Str := "name".toList
  avail : Str := "all".toList
  favOnly : Bool := false
  page : JSNat := 1
  deriving DecidableEq, Repr

/-- The initial value of `state`. -/
def defaultState : UIState := {}

/-- The constant `PAGE_SIZE`. -/
def PAGE_SIZE : Nat := 12

/-! ## Filter engine -/

/-- The function `availabilityRank`, applied to the raw `availability` value. -/
def availabilityRank (x : Option Str) : Nat :=
  if x = some "Available".toList then 0
  else if x = some "Limited".toList then 1 else 2

/-- The function `availabilityBucket`; `lower` is `toLowerCase`. -/
def availabilityBucket (lower : Str → Str) (m : Mentor) : Str :=
  let a := lower (m.availability.getD [])
  if includes a "available".toList then "available".toList
  else if includes a "limited".toList then "limited".toList
  else "unavailable".toList

/-- The function `tokenize`; `lower` is `toLowerCase`. -/
def tokenize (lower : Str → Str) (q : Str) : List Str :=
  uniq ((splitWhitespace (lower (trim q))).filter (fun t => !t.isEmpty))

/-- The text searched by `matches`: the fields joined with `" | "`, the
interests joined with a space, lower-cased. -/
def blob (lower : Str → Str) (m : Mentor) : Str :=
  normalize lower (join " | ".toList
    [m.name.getD [], m.role.getD [], m.org.getD [],
     join " ".toList (m.interests.getD []), m.notes.getD []])

/-- The search-text part of `matches`. -/
def qOk (lower : Str → Str) (st : UIState) (m : Mentor) : Bool :=
  let tokens := tokenize lower st.q
  tokens.length == 0 || tokens.all (fun t => includes (blob lower m) t)

/-- The chip part of `matches`. -/
def chipOk (st : UIState) (m : Mentor) : Bool :=
  let selected := st.chips
  selected.length == 0 || selected.all (fun sel => (m.interests.getD []).contains sel)

/-- The availability part of `matches`. -/
def availOk (lower : Str → Str) (st : UIState) (m : Mentor) : Bool :=
  st.avail == "all".toList || availabilityBucket lower m == st.avail

/-- The favourites part of `matches`; `favs` is the stored favourites set. -/
def favOk (st : UIState) (favs : List Nat) (m : Mentor) : Bool :=
  !st.favOnly || favs.contains m.id

/-- The function `matches`. -/
def «matches» (lower : Str → Str) (st : UIState) (favs : List Nat) (m : Mentor) : Bool :=
  qOk lower st m && chipOk st m && availOk lower st m && favOk st favs m

/-- The list `filtered` of `renderCards`: `MENTORS.filter(matches)`. -/
def filtered (lower : Str → Str) (st : UIState) (favs : List Nat) (mentors : List Mentor) :
    List Mentor :=
  mentors.filter («matches» lower st favs)

/-! ## URL state codec -/

/-- The content of a `URLSearchParams` object: the decoded name/value pairs of
the query string, in order.  Serialising the pairs into `location.search` and
parsing them back is taken to be the identity. -/
abbrev Params := List (Str × Str)

/-- The method `get`: the value of the first pair with that name, or `null`. -/
def paramsGet : Params → Str → Option Str
  | [], _ => none
  | (k', v) :: rest, k => if k' = k then some v else paramsGet rest k

/-- The method `delete`: drop every pair with that name. -/
def paramsDelete (p : Params) (k : Str) : Params := p.filter (fun kv => kv.1 ≠ k)

/-- The method `set`: overwrite the first pair with that name and drop the
others, or append a new pair. -/
def paramsSet : Params → Str → Str → Params
  | [], k, v => [(k, v)]
  | (k', v') :: rest, k, v =>
    if k' = k then (k, v) :: paramsDelete rest k else (k', v') :: paramsSet rest k v

/-- The expression `x || d` for a string or `null` value `x`. -/
def orDefault (x : Option Str) (d : Str) : Str :=
  match x with
  | some s => if s.isEmpty then d else s
  | none => d

/-- A decimal digit. -/
def isDigit (c : Char) : Bool := 48 ≤ c.toNat && c.toNat ≤ 57

/-- The numeral read by `parseInt(s, 10)`: leading white space, an optional
sign, then the longest run of decimal digits.  The result is the sign
(`true` for a minus) and the integer the digits denote, `none` when there is
no digit. -/
def parseIntDigits (s : Str) : Option (Bool × Nat) :=
  let s1 := s.dropWhile isWhitespace
  let neg := s1.head? == some '-'
  let s2 := if s1.head? == some '-' || s1.head? == some '+' then s1.tail else s1
  let ds := s2.takeWhile isDigit
  if ds.isEmpty then none
  else some (neg, ds.foldl (fun acc c => acc * 10 + (c.toNat - 48)) 0)

/-- The result of `parseInt`: `NaN`, or a sign and a magnitude. -/
inductive ParsedInt where
  | nan
  | number (negative : Bool) (magnitude : JSNat)
  deriving DecidableEq, Repr

/-- The call `parseInt(s, 10)`: the integer read, rounded to a double.  (For a
numeral of more than 20 significant digits the language lets an engine drop
the digits after the 20th before rounding; the numerals used below have at
most 17 digits before their zeros, or overflow either way.) -/
def parseInt (s : Str) : ParsedInt :=
  match parseIntDigits s with
  | none => ParsedInt.nan
  | some (neg, v) => ParsedInt.number neg (roundToDouble v)

/-- The page expression of `readURLState`:
`Math.max(1, parseInt(p.get("page") || "1", 10) || 1)`.  `NaN` and zero are
falsy and give 1, a negative number is below 1, and a positive result is an
integer of at least 1 or `Infinity`. -/
def readPage (v : Option Str) : JSNat :=
  match parseInt (orDefault v "1".toList) with
  | ParsedInt.nan => 1
  | ParsedInt.number negative magnitude =>
    if magnitude = 0 then 1
    else if negative then 1
    else magnitude

/-- The function `readURLState`, reading from the given parameters. -/
def readURLState (p : Params) : UIState :=
  { q := orDefault (paramsGet p "q".toList) [],
    chips := uniq (parseCSV (paramsGet p "chips".toList)),
    sort := orDefault (paramsGet p "sort".toList) "name".toList,
    avail := orDefault (paramsGet p "avail".toList) "all".toList,
    favOnly := paramsGet p "fav".toList == some "1".toList,
    page := readPage (paramsGet p "page".toList) }

/-- The function `writeURLState`: the parameters of the current URL updated
with the state; the result is the query of the URL handed to
`history.replaceState`. -/
def writeURLState (p : Params) (st : UIState) : Params :=
  let q := trim st.q
  let chips := st.chips
  let sort := orDefault (some st.sort) "name".toList
  let avail := orDefault (some st.avail) "all".toList
  let page := numberToString (if st.page = 0 then 1 else st.page)
  let p1 := if q ≠ [] then paramsSet p "q".toList q else paramsDelete p "q".toList
  let p2 := if chips.length ≠ 0 then paramsSet p1 "chips".toList (toCSV chips)
    else paramsDelete p1 "chips".toList
  let p3 := if sort ≠ "name".toList then paramsSet p2 "sort".toList sort
    else paramsDelete p2 "sort".toList
  let p4 := if avail ≠ "all".toList then paramsSet p3 "avail".toList avail
    else paramsDelete p3 "avail".toList
  let p5 := if st.favOnly then paramsSet p4 "fav".toList "1".toList
    else paramsDelete p4 "fav".toList
  if st.page ≠ 0 ∧ st.page ≠ 1 then paramsSet p5 "page".toList page
  else paramsDelete p5 "page".toList

/-! ## Sorting and pagination -/

/-- Insertion step of `jsSort`: `a` goes in front of the first element it does
not compare greater than. -/
def orderedInsert {α : Type} (cmp : α → α → Int) (a : α) : List α → List α
  | [] => [a]
  | b :: l => if cmp a b ≤ 0 then a :: b :: l else b :: orderedInsert cmp a l

/-- The method `sort` with a comparator, on a copy: a stable sort, elements
that compare equal keep their order. -/
def jsSort {α : Type} (cmp : α → α → Int) : List α → List α
  | [] => []
  | a :: l => orderedInsert cmp a (jsSort cmp l)

/-- Comparator of the sort mode `name`. -/
def compareName (lc : Str → Str → Int) (a b : Mentor) : Int :=
  lc (a.name.getD []) (b.name.getD [])

/-- Comparator of the sort mode `year`. -/
def compareYear (a b : Mentor) : Int :=
  ((b.gradYear.getD 0 : Nat) : Int) - ((a.gradYear.getD 0 : Nat) : Int)

/-- Comparator of the sort mode `availability`: the rank difference, or the
name comparison when it is zero. -/
def compareAvailability (lc : Str → Str → Int) (a b : Mentor) : Int :=
  let d : Int := (availabilityRank a.availability : Int) - (availabilityRank b.availability : Int)
  if d ≠ 0 then d else lc (a.name.getD []) (b.name.getD [])

/-- The function `sortMentors`; `lc` is `localeCompare`. -/
def sortMentors (lc : Str → Str → Int) (st : UIState) (list : List Mentor) : List Mentor :=
  let copy := list
  if st.sort = "name".toList then jsSort (compareName lc) copy
  else if st.sort = "year".toList then jsSort compareYear copy
  else if st.sort = "availability".toList then jsSort (compareAvailability lc) copy
  else copy

/-- The availability counts shown on the quick-filter buttons. -/
structure Counts where
  all : Nat
  available : Nat
  limited : Nat
  unavailable : Nat
  deriving DecidableEq, Repr

/-- The list `baseFiltered` of `renderCards`: `matches` run with `state.avail`
set to `all` for the duration of the call. -/
def baseFiltered (lower : Str → Str) (st : UIState) (favs : List Nat)
    (mentors : List Mentor) : List Mentor :=
  mentors.filter (fun m => «matches» lower { st with avail := "all".toList } favs m)

/-- The object `counts` of `renderCards`. -/
def availabilityCounts (lower : Str → Str) (st : UIState) (favs : List Nat)
    (mentors : List Mentor) : Counts :=
  let base := baseFiltered lower st favs mentors
  { all := base.length,
    available := (base.filter (fun m => availabilityBucket lower m == "available".toList)).length,
    limited := (base.filter (fun m => availabilityBucket lower m == "limited".toList)).length,
    unavailable :=
      (base.filter (fun m => availabilityBucket lower m == "unavailable".toList)).length }

/-- The list `sorted` of `renderCards`. -/
def sorted (lower : Str → Str) (lc : Str → Str → Int) (st : UIState) (favs : List Nat)
    (mentors : List Mentor) : List Mentor :=
  sortMentors lc st (filtered lower st favs mentors)

/-- The list `pageList` of `renderCards`: `sorted.slice(0, state.page * PAGE_SIZE)`,
the mentors that get a card. -/
def pageList (lower : Str → Str) (lc : Str → Str → Int) (st : UIState) (favs : List Nat)
    (mentors : List Mentor) : List Mentor :=
  sliceTo (sorted lower lc st favs mentors) (st.page.times PAGE_SIZE)

/-! ## Event handlers -/

/-- The method `add` of a `Set`. -/
def setAdd (s : List Str) (x : Str) : List Str := if s.contains x then s else s ++ [x]

/-- The method `delete` of a `Set`. -/
def setDelete (s : List Str) (x : Str) : List Str := s.filter (fun y => y ≠ x)

/-- Click on the favourites-only toggle. -/
def toggleFavOnly (st : UIState) : UIState :=
  { st with favOnly := !st.favOnly, page := 1 }

/-- Click on the button "Load more". -/
def loadMore (st : UIState) : UIState := { st with page := st.page.addOne }

/-! ## Highlighting -/

/-- An entry of the array `parts` of `highlight`: a plain string, or an
object `{ mark: seg }`. -/
inductive Part where
  | text (s : Str)
  | mark (s : Str)
  deriving DecidableEq, Repr

/-- The characters of the record text carried by a part. -/
def Part.content : Part → Str
  | Part.text s => s
  | Part.mark s => s

/-- The regular expression built from a token, flags `ig`, tried at the start
of `s`: the special characters of the token are escaped, so it matches the
token literally, character by character.  With the flag `i` two characters
match when their canonical forms are equal; `canon` is that map (the
`Canonicalize` of the regular-expression semantics, which works on single
characters). -/
def matchesAt (canon : Char → Char) (tok s : Str) : Bool :=
  (tok.map canon).isPrefixOf (s.map canon)

/-- Scanner behind `splitToken` for a non-empty token: `skip` counts the
characters still covered by the last match, `cur` is the unmatched piece being
read (reversed). -/
def splitTokenGo (canon : Char → Char) (tok : Str) : Nat → Str → Str → List Part
  | _, cur, [] => [Part.text cur.reverse]
  | skip + 1, cur, _ :: cs => splitTokenGo canon tok skip cur cs
  | 0, cur, c :: cs =>
    if matchesAt canon tok (c :: cs) then
      Part.text cur.reverse :: Part.mark ((c :: cs).take tok.length) ::
        splitTokenGo canon tok (tok.length - 1) [] cs
    else splitTokenGo canon tok 0 (c :: cur) cs

/-- The call `p.split(re)` when the token is empty: the expression matches
the empty string between any two characters. -/
def splitEmptyToken : Str → List Part
  | [] => []
  | [c] => [Part.text [c]]
  | c :: d :: cs => Part.text [c] :: Part.mark [] :: splitEmptyToken (d :: cs)

/-- The call `p.split(re)` of `highlight`, with the pieces at odd positions
(the captured matches) turned into marks. -/
def splitToken (canon : Char → Char) (tok p : Str) : List Part :=
  if tok.isEmpty then splitEmptyToken p else splitTokenGo canon tok 0 [] p

/-- One round of `tokens.forEach`: every string part is split at the matches
of the token, a marked part is kept. -/
def highlightStep (canon : Char → Char) (tok : Str) (parts : List Part) : List Part :=
  parts.flatMap (fun p =>
    match p with
    | Part.text s => splitToken canon tok s
    | Part.mark s => [Part.mark s])

/-- The array `parts` of `highlight` after all tokens. -/
def highlightParts (canon : Char → Char) (raw : Str) (tokens : List Str) : List Part :=
  tokens.foldl (fun parts t => highlightStep canon t parts) [Part.text raw]

/-- The HTML emitted for one part. -/
def renderPart : Part → Str
  | Part.text s => escapeHTML s
  | Part.mark s => "<mark>".toList ++ escapeHTML s ++ "</mark>".toList

/-- The function `highlight`. -/
def highlight (canon : Char → Char) (text : Option Str) (tokens : List Str) : Str :=
  let raw := text.getD []
  if tokens.length = 0 then escapeHTML raw
  else (highlightParts canon raw tokens).flatMap renderPart

/-- Scanner behind `stripMarks`; `skip` counts the characters of a marker
still to drop. -/
def stripMarksGo : Nat → Str → Str
  | _, [] => []
  | skip + 1, _ :: cs => stripMarksGo skip cs
  | 0, c :: cs =>
    if "<mark>".toList.isPrefixOf (c :: cs) then stripMarksGo 5 cs
    else if "</mark>".toList.isPrefixOf (c :: cs) then stripMarksGo 6 cs
    else c :: stripMarksGo 0 cs

/-- Remove every `<mark>` and `</mark>` from a string. -/
def stripMarks (s : Str) : Str := stripMarksGo 0 s

/-! ## Stored state and start-up -/

/-- The value parsed from the item stored under `STORAGE_KEY`, when it is a
JSON object: each property may be missing. -/
structure StoredState where
  q : Option Str := none
  chips : Option (List Str) := none
  sort : Option Str := none
  avail : Option Str := none
  favOnly : Option Bool := none
  deriving DecidableEq, Repr

/-- The function `saveLocalState`: the object written under `STORAGE_KEY`.
Writing it as JSON and parsing it back is taken to be the identity. -/
def saveLocalState (st : UIState) : StoredState :=
  { q := some (orDefault (some st.q) []),
    chips := some st.chips,
    sort := some (orDefault (some st.sort) "name".toList),
    avail := some (orDefault (some st.avail) "all".toList),
    favOnly := some st.favOnly }

/-- The function `loadLocalState`.  The argument is `none` when the item is
missing, does not parse, or parses to a falsy value. -/
def loadLocalState (raw : Option StoredState) : Option UIState :=
  match raw with
  | none => none
  | some raw =>
    some
      { q := orDefault raw.q [],
        chips := uniq (raw.chips.getD []),
        sort := orDefault raw.sort "name".toList,
        avail := orDefault raw.avail "all".toList,
        favOnly := raw.favOnly.getD false,
        page := 1 }

/-- The flag `hasUrlFilters` of `init`. -/
def hasUrlFilters (urlState : UIState) : Bool :=
  !urlState.q.isEmpty || urlState.chips.length != 0 || urlState.sort != "name".toList ||
    urlState.avail != "all".toList || urlState.favOnly || urlState.page != 1

/-- The state set up by `init` from the query parameters and the stored item. -/
def init (p : Params) (raw : Option StoredState) : UIState :=
  let urlState := readURLState p
  let «local» := loadLocalState raw
  let seed := if hasUrlFilters urlState then urlState else «local».getD urlState
  { q := orDefault (some seed.q) [],
    chips := uniq seed.chips,
    sort := orDefault (some seed.sort) "name".toList,
    avail := orDefault (some seed.avail) "all".toList,
    favOnly := seed.favOnly,
    page := if seed.page = 0 then 1 else seed.page }

/-- The values the quick-filter buttons are made with: the second argument of
the four calls of `makeQF`. -/
inductive QuickFilter where
  | all
  | available
  | limited
  | unavailable
  deriving DecidableEq, Repr

/-- The string `val` of a quick-filter button. -/
def QuickFilter.val : QuickFilter → Str
  | QuickFilter.all => "all".toList
  | QuickFilter.available => "available".toList
  | QuickFilter.limited => "limited".toList
  | QuickFilter.unavailable => "unavailable".toList

/-- The four values of the availability filter. -/
def availValues : List Str :=
  ["all".toList, "available".toList, "limited".toList, "unavailable".toList]

/-- The UI events that change `state`. -/
inductive Event where
  /-- Input in the search box, with the new text. -/
  | searchInput (value : Str)
  /-- Change of the sort select, with the new value. -/
  | sortChange (value : Str)
  /-- Click on the chip with that label. -/
  | chipClick (label : Str)
  /-- Click on a quick-filter button. -/
  | quickFilterClick (val : QuickFilter)
  /-- Click on the favourites-only toggle. -/
  | favOnlyToggle
  /-- Click on the star of a card: the favourites set changes, the page is
  reset. -/
  | favoriteClick (id : Nat)
  /-- Click on "Load more". -/
  | loadMore
  /-- Click on the clear button: `clearFilters`. -/
  | clear
  deriving DecidableEq, Repr

/-- The function `clearFilters`. -/
def clearFilters (_st : UIState) : UIState :=
  { q := [], chips := [], sort := "name".toList, avail := "all".toList,
    favOnly := false, page := 1 }

/-- The effect of an event handler on `state`. -/
def step (st : UIState) : Event → UIState
  | Event.searchInput value => { st with q := value, page := 1 }
  | Event.sortChange value => { st with sort := value, page := 1 }
  | Event.chipClick label =>
    { st with
      chips := if st.chips.contains label then setDelete st.chips label
        else setAdd st.chips label,
      page := 1 }
  | Event.quickFilterClick val => { st with avail := val.val, page := 1 }
  | Event.favOnlyToggle => toggleFavOnly st
  | Event.favoriteClick _ => { st with page := 1 }
  | Event.loadMore => loadMore st
  | Event.clear => clearFilters st

/-- The state after `init` and a sequence of events. -/
def run (p : Params) (raw : Option StoredState) (events : List Event) : UIState :=
  events.foldl step (init p raw)

/-! ## Reference predicates and sample data -/

/-- The reading of the search filter by fields: the token occurs in the
lower-cased name, role, organisation, one of the interests or notes. -/
def inSomeField (lower : Str → Str) (m : Mentor) (t : Str) : Bool :=
  includes (lower (m.name.getD [])) t ||
  includes (lower (m.role.getD [])) t ||
  includes (lower (m.org.getD [])) t ||
  (m.interests.getD []).any (fun i => includes (lower i) t) ||
  includes (lower (m.notes.getD [])) t

/-- A sample mentor. -/
def ann : Mentor :=
  { id := 1, name := some "Ann Lee".toList, interests := some ["AI".toList],
    availability := some "Available".toList }

/-- A collation for the places where a concrete `localeCompare` is needed:
code-point order, negative when `a` comes first, zero when the strings are
equal. -/
def codePointCompare : Str → Str → Int
  | [], [] => 0
  | [], _ :: _ => -1
  | _ :: _, [] => 1
  | a :: as, b :: bs =>
    if a.toNat < b.toNat then -1
    else if b.toNat < a.toNat then 1
    else codePointCompare as bs

/-- A mentor whose availability is the exact word `Limited`. -/
def mentorLimited : Mentor :=
  { id := 1, name := some "A".toList, availability := some "Limited".toList }

/-- A mentor whose availability is free text starting with `Available`. -/
def mentorWeekends : Mentor :=
  { id := 2, name := some "B".toList, availability := some "Available (weekends)".toList }

/-- The second mentor of the example of the specification. -/
def bo : Mentor :=
  { id := 2, name := some "Bo Park".toList, interests := some ["Robotics".toList],
    availability := some "Limited".toList }

/-! ## Lemmas and theorems -/

open List

/-! ### Strings and tokens -/

theorem includes_iff (s t : Str) : includes s t = true ↔ t <:+: s := by
  unfold includes
  rw [List.any_eq_true]
  constructor
  · rintro ⟨u, hu, hp⟩
    rw [List.mem_tails] at hu
    rw [ List.isPrefixOf_iff_prefix] at hp
    exact List.infix_iff_prefix_suffix.mpr ⟨u, hp, hu⟩
  · intro h
    obtain ⟨u, hp, hu⟩ := List.infix_iff_prefix_suffix.mp h
    exact ⟨u, (List.mem_tails _ _).mpr hu, List.isPrefixOf_iff_prefix.mpr hp⟩

/-- A string without the character `c` that occurs in `a ++ c :: b` occurs in
`a` or in `b`. -/
theorem infix_append_cons_of_not_mem {c : Char} {t a b : Str} (hc : c ∉ t)
    (h : t <:+: a ++ c :: b) : t <:+: a ∨ t <:+: b := by
  obtain ⟨s, u, hsu⟩ := h
  rw [List.append_assoc, List.append_eq_append_iff] at hsu
  rcases hsu with ⟨a', ha, hb⟩ | ⟨c', hs, hb⟩
  · rw [List.append_eq_append_iff] at hb
    rcases hb with ⟨x, hx, _⟩ | ⟨y, hy, hyu⟩
    · left; exact ⟨s, x, by rw [ha, hx, List.append_assoc]⟩
    · cases y with
      | nil => left; exact ⟨s, [], by simp [ha, hy]⟩
      | cons d y =>
        simp only [List.cons_append, List.cons.injEq] at hyu
        exact absurd (by rw [hy, hyu.1]; simp) hc
  · cases c' with
    | nil =>
      simp only [List.nil_append] at hb
      cases t with
      | nil => left; exact List.nil_infix
      | cons d t =>
        simp only [List.cons_append, List.cons.injEq] at hb
        exact absurd (by rw [hb.1]; simp) hc
    | cons d c' =>
      simp only [List.cons_append, List.cons.injEq] at hb
      right; exact ⟨c', u, by rw [hb.2, List.append_assoc]⟩


/-- Every piece produced by the scanner is made of characters of the piece
being read or of non-white-space characters of the input. -/
theorem splitWhitespaceGo_chars (s : Str) : ∀ (cur : Str) (inWs : Bool) (t : Str),
    t ∈ splitWhitespaceGo cur inWs s →
    ∀ c ∈ t, c ∈ cur ∨ (c ∈ s ∧ isWhitespace c = false) := by
  induction s with
  | nil =>
    intro cur inWs t ht c hc
    simp only [splitWhitespaceGo, List.mem_singleton] at ht
    subst ht
    exact Or.inl (List.mem_reverse.mp hc)
  | cons d s ih =>
    intro cur inWs t ht c hc
    unfold splitWhitespaceGo at ht
    by_cases hd : isWhitespace d = true
    · rw [if_pos hd] at ht
      cases inWs with
      | true =>
        simp only [if_true] at ht
        rcases ih cur true t ht c hc with h | h
        · exact Or.inl h
        · exact Or.inr ⟨List.mem_cons_of_mem _ h.1, h.2⟩
      | false =>
        simp only [Bool.false_eq_true, if_false, List.mem_cons] at ht
        rcases ht with ht | ht
        · subst ht
          exact Or.inl (List.mem_reverse.mp hc)
        · rcases ih [] true t ht c hc with h | h
          · exact absurd h (List.not_mem_nil _)
          · exact Or.inr ⟨List.mem_cons_of_mem _ h.1, h.2⟩
    · rw [if_neg hd] at ht
      rcases ih (d :: cur) false t ht c hc with h | h
      · rcases List.mem_cons.mp h with h | h
        · subst h
          exact Or.inr ⟨List.mem_cons_self _ _, by simpa using hd⟩
        · exact Or.inl h
      · exact Or.inr ⟨List.mem_cons_of_mem _ h.1, h.2⟩

theorem mem_uniq {α : Type} [DecidableEq α] (x : α) : ∀ l : List α, x ∈ uniq l ↔ x ∈ l := by
  intro l
  induction l with
  | nil => simp [uniq]
  | cons y l ih =>
    by_cases h : x = y
    · simp [uniq, h]
    · simp [uniq, ih, h]

theorem mem_tokenize (lower : Str → Str) {q t : Str} :
    t ∈ tokenize lower q ↔ t ∈ splitWhitespace (lower (trim q)) ∧ t ≠ [] := by
  unfold tokenize
  rw [mem_uniq, List.mem_filter]
  simp

/-- A search token is non-empty and free of white space. -/
theorem token_shape (lower : Str → Str) {q t : Str} (ht : t ∈ tokenize lower q) :
    t ≠ [] ∧ ∀ c ∈ t, isWhitespace c = false := by
  obtain ⟨hs, hne⟩ := (mem_tokenize lower).mp ht
  have hch := splitWhitespaceGo_chars _ [] false t hs
  refine ⟨hne, ?_⟩
  intro c hc
  rcases hch c hc with h | h
  · exact absurd h (List.not_mem_nil _)
  · exact h.2

/-- Lower-casing of ASCII text has the properties the theorems ask of
`toLowerCase`. -/
theorem asciiLowerCase_laws : LowerCaseLaws asciiLowerCase := by
  refine ⟨rfl, fun a b => ?_, by decide⟩
  have h : lowerChar ' ' = ' ' := by decide
  simp [asciiLowerCase, h]

theorem join_cons_cons (sep a b : Str) (l : List Str) :
    join sep (a :: b :: l) = a ++ sep ++ join sep (b :: l) := by
  simp [join, List.intercalate, List.intersperse]

theorem join_singleton (sep a : Str) : join sep [a] = a := by
  simp [join, List.intercalate, List.intersperse]

theorem join_nil (sep : Str) : join sep [] = [] := by
  simp [join, List.intercalate, List.intersperse]

/-- The searched text, field by field. -/
theorem blob_eq (lower : Str → Str) (hl : LowerCaseLaws lower) (m : Mentor) :
    blob lower m = lower (m.name.getD []) ++ ' ' :: ('|' :: ' ' ::
      (lower (m.role.getD []) ++ ' ' :: ('|' :: ' ' ::
        (lower (m.org.getD []) ++ ' ' :: ('|' :: ' ' ::
          (lower (join [' '] (m.interests.getD [])) ++ ' ' :: ('|' :: ' ' ::
            lower (m.notes.getD [])))))))) := by
  obtain ⟨_, hsp, hbar⟩ := hl
  have hsep : ∀ a b : Str, lower (a ++ ' ' :: '|' :: ' ' :: b) =
      lower a ++ ' ' :: '|' :: ' ' :: lower b := by
    intro a b
    have e : lower ('|' :: ' ' :: b) = '|' :: ' ' :: lower b := by
      have := hsp ['|'] b
      rw [hbar] at this
      simpa using this
    rw [hsp, e]
  have h1 : " | ".toList = [' ', '|', ' '] := rfl
  have h2 : " ".toList = [' '] := rfl
  have e : join " | ".toList
      [m.name.getD [], m.role.getD [], m.org.getD [],
        join " ".toList (m.interests.getD []), m.notes.getD []] =
      m.name.getD [] ++ ' ' :: '|' :: ' ' :: (m.role.getD [] ++ ' ' :: '|' :: ' ' ::
        (m.org.getD [] ++ ' ' :: '|' :: ' ' ::
          (join [' '] (m.interests.getD []) ++ ' ' :: '|' :: ' ' :: m.notes.getD []))) := by
    simp [join_cons_cons, join_singleton, h1, h2]
  rw [blob, normalize, e, hsep, hsep, hsep, hsep]

/-- A token occurs in `a ++ " | " ++ b` when it occurs in `a`, is the bar of
the separator, or occurs in `b`. -/
theorem infix_sep_iff {t a b : Str} (hne : t ≠ []) (hsp : ' ' ∉ t) :
    t <:+: a ++ ' ' :: ('|' :: ' ' :: b) ↔ t <:+: a ∨ t = ['|'] ∨ t <:+: b := by
  constructor
  · intro h
    rcases infix_append_cons_of_not_mem hsp h with h | h
    · exact Or.inl h
    · have h' : t <:+: ['|'] ++ ' ' :: b := by simpa using h
      rcases infix_append_cons_of_not_mem hsp h' with h | h
      · right; left
        obtain ⟨s, u, hsu⟩ := h
        cases s with
        | nil =>
          cases t with
          | nil => exact absurd rfl hne
          | cons d t =>
            simp only [List.nil_append, List.cons_append, List.cons.injEq,
              List.append_eq_nil] at hsu
            rw [hsu.1, hsu.2.1]
        | cons d s =>
          simp only [List.cons_append, List.cons.injEq, List.append_eq_nil] at hsu
          exact absurd hsu.2.1.2 hne
      · exact Or.inr (Or.inr h)
  · rintro (h | h | h)
    · exact h.trans (List.infix_append' [] a _)
    · subst h
      exact ⟨a ++ [' '], ' ' :: b, by simp⟩
    · exact h.trans ⟨a ++ [' ', '|', ' '], [], by simp⟩

theorem infix_join_space_iff (lower : Str → Str) (hl : LowerCaseLaws lower) {t : Str}
    (hne : t ≠ []) (hsp : ' ' ∉ t) (l : List Str) :
    t <:+: lower (join [' '] l) ↔ ∃ i ∈ l, t <:+: lower i := by
  induction l with
  | nil =>
    simp only [join_nil, hl.1, List.not_mem_nil, false_and, exists_false, iff_false]
    intro h
    exact hne (List.eq_nil_of_infix_nil h)
  | cons a l ih =>
    cases l with
    | nil => simp [join_singleton]
    | cons b l =>
      have e : lower (join [' '] (a :: b :: l)) =
          lower a ++ ' ' :: lower (join [' '] (b :: l)) := by
        rw [join_cons_cons, List.append_assoc, List.singleton_append, hl.2.1]
      rw [e]
      constructor
      · intro h
        rcases infix_append_cons_of_not_mem hsp h with h | h
        · exact ⟨a, List.mem_cons_self _ _, h⟩
        · obtain ⟨i, hi, hti⟩ := ih.mp h
          exact ⟨i, List.mem_cons_of_mem _ hi, hti⟩
      · rintro ⟨i, hi, hti⟩
        rcases List.mem_cons.mp hi with rfl | hi
        · exact hti.trans (List.infix_append' [] _ _)
        · exact (ih.mpr ⟨i, hi, hti⟩).trans ⟨lower a ++ [' '], [], by simp⟩

/-- A token occurs in the searched text exactly when it is the separator bar
or occurs in one of the lower-cased fields. -/
theorem includes_blob_iff (lower : Str → Str) (hl : LowerCaseLaws lower) (m : Mentor)
    {q t : Str} (ht : t ∈ tokenize lower q) :
    includes (blob lower m) t = true ↔ (t = ['|'] ∨ inSomeField lower m t = true) := by
  obtain ⟨hne, hws⟩ := token_shape lower ht
  have hsp : ' ' ∉ t := fun h => by
    have := hws ' ' h
    exact absurd this (by decide)
  rw [includes_iff, blob_eq lower hl, infix_sep_iff hne hsp, infix_sep_iff hne hsp,
    infix_sep_iff hne hsp, infix_sep_iff hne hsp, infix_join_space_iff lower hl hne hsp]
  simp only [inSomeField, Bool.or_eq_true, includes_iff, List.any_eq_true]
  generalize (∃ i ∈ m.interests.getD [], t <:+: lower i) = P
  tauto

/-- C1 (amended): with no chip selected, availability filter `all` and
favourites-only off, a mentor is in the filtered result exactly when every
token of `tokenize q` occurs in its lower-cased name, role, organisation, one
of its interests or its notes, or is the single bar `|` of the separator that
joins the fields; with no token every mentor is kept.  `lower` is the
method `toLowerCase`, of which `LowerCaseLaws` is used. -/
theorem C1_search_tokens (lower : Str → Str) (hl : LowerCaseLaws lower) (st : UIState)
    (favs : List Nat) (mentors : List Mentor)
    (hchips : st.chips = []) (havail : st.avail = "all".toList)
    (hfav : st.favOnly = false) :
    (∀ m, m ∈ filtered lower st favs mentors ↔
      (m ∈ mentors ∧
        ∀ t ∈ tokenize lower st.q, t = ['|'] ∨ inSomeField lower m t = true)) ∧
    (tokenize lower st.q = [] → filtered lower st favs mentors = mentors) := by
  have hm : ∀ m, «matches» lower st favs m = true ↔
      ∀ t ∈ tokenize lower st.q, t = ['|'] ∨ inSomeField lower m t = true := by
    intro m
    simp only [«matches», qOk, chipOk, availOk, favOk, hchips, havail, hfav,
      List.length_nil, beq_self_eq_true, Bool.true_or, Bool.not_false, Bool.and_true,
      Bool.or_eq_true, List.all_eq_true]
    constructor
    · intro h t ht
      rcases h with h | h
      · rw [beq_iff_eq, List.length_eq_zero] at h
        rw [h] at ht
        exact absurd ht (List.not_mem_nil _)
      · exact (includes_blob_iff lower hl m ht).mp (h t ht)
    · intro h
      exact Or.inr fun t ht => (includes_blob_iff lower hl m ht).mpr (h t ht)
  refine ⟨fun m => ?_, fun h => ?_⟩
  · rw [filtered, List.mem_filter, hm]
  · rw [filtered, List.filter_eq_self]
    intro m _
    rw [hm, h]
    intro t ht
    exact absurd ht (List.not_mem_nil _)

/-- C1 as stated fails: the search text `|` keeps a mentor none of whose
fields contains a bar, because the bar occurs in the separator of the searched
text. -/
theorem C1_counterexample :
    ann ∈ filtered asciiLowerCase { q := "|".toList } [] [ann] ∧
    ¬ (∀ t ∈ tokenize asciiLowerCase "|".toList, inSomeField asciiLowerCase ann t = true) := by
  decide

/-- C1 (amended) at the search text `an` over the sample mentor, with the
lower-casing of ASCII text. -/
theorem C1_search_tokens_witness :
    (∀ m, m ∈ filtered asciiLowerCase { q := "an".toList } [] [ann] ↔
      (m ∈ [ann] ∧ ∀ t ∈ tokenize asciiLowerCase "an".toList,
        t = ['|'] ∨ inSomeField asciiLowerCase m t = true)) ∧
    (tokenize asciiLowerCase "an".toList = [] →
      filtered asciiLowerCase { q := "an".toList } [] [ann] = [ann]) :=
  C1_search_tokens asciiLowerCase asciiLowerCase_laws { q := "an".toList } [] [ann] rfl rfl rfl

/-! ### URL parameters -/

theorem paramsDelete_cons (k1 v1 : Str) (p : Params) (k : Str) :
    paramsDelete ((k1, v1) :: p) k =
      if k1 = k then paramsDelete p k else (k1, v1) :: paramsDelete p k := by
  by_cases h : k1 = k <;> simp [paramsDelete, h]

theorem paramsGet_delete_same (p : Params) (k : Str) : paramsGet (paramsDelete p k) k = none := by
  induction p with
  | nil => rfl
  | cons kv p ih =>
    obtain ⟨k1, v1⟩ := kv
    rw [paramsDelete_cons]
    by_cases h : k1 = k
    · rw [if_pos h]; exact ih
    · rw [if_neg h, paramsGet, if_neg h]; exact ih

theorem paramsGet_delete_ne (p : Params) {k k2 : Str} (hk : k ≠ k2) :
    paramsGet (paramsDelete p k2) k = paramsGet p k := by
  induction p with
  | nil => rfl
  | cons kv p ih =>
    obtain ⟨k1, v1⟩ := kv
    rw [paramsDelete_cons]
    by_cases h : k1 = k2
    · have h2 : k1 ≠ k := fun e => hk (e ▸ h)
      rw [if_pos h, ih, paramsGet, if_neg h2]
    · rw [if_neg h]
      by_cases h3 : k1 = k
      · rw [paramsGet, if_pos h3, paramsGet, if_pos h3]
      · rw [paramsGet, if_neg h3, paramsGet, if_neg h3]; exact ih

theorem paramsGet_set_same (p : Params) (k v : Str) : paramsGet (paramsSet p k v) k = some v := by
  induction p with
  | nil => simp [paramsSet, paramsGet]
  | cons kv p ih =>
    obtain ⟨k1, v1⟩ := kv
    rw [paramsSet]
    by_cases h : k1 = k
    · rw [if_pos h, paramsGet, if_pos rfl]
    · rw [if_neg h, paramsGet, if_neg h]; exact ih

theorem paramsGet_set_ne (p : Params) {k k2 : Str} (v : Str) (hk : k ≠ k2) :
    paramsGet (paramsSet p k2 v) k = paramsGet p k := by
  induction p with
  | nil => simp [paramsSet, paramsGet, Ne.symm hk]
  | cons kv p ih =>
    obtain ⟨k1, v1⟩ := kv
    rw [paramsSet]
    by_cases h : k1 = k2
    · have h2 : k1 ≠ k := fun e => hk (e ▸ h)
      rw [if_pos h, paramsGet, if_neg (Ne.symm hk), paramsGet_delete_ne _ hk, paramsGet,
        if_neg h2]
    · rw [if_neg h]
      by_cases h3 : k1 = k
      · rw [paramsGet, if_pos h3, paramsGet, if_pos h3]
      · rw [paramsGet, if_neg h3, paramsGet, if_neg h3]; exact ih

/-! ### Decimal numerals -/

theorem digitChar_isDigit (k : Nat) (h : k < 10) :
    isDigit (Nat.digitChar k) = true ∧ (Nat.digitChar k).toNat - 48 = k := by
  interval_cases k <;> decide

theorem isWhitespace_of_isDigit {c : Char} (h : isDigit c = true) : isWhitespace c = false := by
  simp only [isDigit, Bool.and_eq_true, decide_eq_true_eq] at h
  simp only [isWhitespace, Bool.or_eq_false_iff, beq_eq_false_iff_ne, ne_eq,
    Bool.and_eq_false_imp, decide_eq_true_eq, decide_eq_false_iff_not]
  omega

/-- The value read from a string of decimal digits. -/
theorem parseIntDigits_digits (s : Str) (hne : s ≠ []) (hd : ∀ c ∈ s, isDigit c = true) :
    parseIntDigits s = some (false, s.foldl (fun acc c => acc * 10 + (c.toNat - 48)) 0) := by
  cases s with
  | nil => exact absurd rfl hne
  | cons d s =>
    have hdd : isDigit d = true := hd d (List.mem_cons_self _ _)
    have hws : isWhitespace d = false := isWhitespace_of_isDigit hdd
    have h1 : (d :: s).dropWhile isWhitespace = d :: s := by
      rw [List.dropWhile_cons, hws]; rfl
    have hm : d ≠ '-' := by
      rintro rfl; exact absurd hdd (by decide)
    have hp : d ≠ '+' := by
      rintro rfl; exact absurd hdd (by decide)
    have h2 : (d :: s).takeWhile isDigit = d :: s := List.takeWhile_eq_self_iff.mpr hd
    have hn : (some d == some '-') = false := by simp [hm]
    have hq : (some d == some '+') = false := by simp [hp]
    simp only [parseIntDigits, h1, List.head?_cons, hn, hq, Bool.or_self, if_false, h2,
      List.isEmpty_cons, Bool.false_eq_true]

theorem toDigitsCore_digits (fuel : Nat) : ∀ (n : Nat) (ds : Str),
    (∀ c ∈ ds, isDigit c = true) →
    (∀ c ∈ Nat.toDigitsCore 10 fuel n ds, isDigit c = true) := by
  induction fuel with
  | zero => intro n ds h; simpa [Nat.toDigitsCore] using h
  | succ fuel ih =>
    intro n ds h
    have hd := (digitChar_isDigit (n % 10) (Nat.mod_lt _ (by decide))).1
    have h' : ∀ c ∈ Nat.digitChar (n % 10) :: ds, isDigit c = true := by
      intro c hc
      rcases List.mem_cons.mp hc with rfl | hc
      · exact hd
      · exact h c hc
    rw [Nat.toDigitsCore]
    by_cases h0 : n / 10 = 0
    · simpa [h0] using h'
    · simpa [h0] using ih (n / 10) _ h'

theorem toDigitsCore_value (fuel : Nat) : ∀ (n : Nat) (ds : Str), n < fuel →
    (Nat.toDigitsCore 10 fuel n ds).foldl (fun acc c => acc * 10 + (c.toNat - 48)) 0 =
      ds.foldl (fun acc c => acc * 10 + (c.toNat - 48)) n := by
  induction fuel with
  | zero => intro n ds h; exact absurd h (Nat.not_lt_zero _)
  | succ fuel ih =>
    intro n ds h
    have hd := (digitChar_isDigit (n % 10) (Nat.mod_lt _ (by decide))).2
    rw [Nat.toDigitsCore]
    by_cases h0 : n / 10 = 0
    · simp only [h0, if_true, List.foldl_cons, hd]
      congr 1; omega
    · simp only [h0, if_false]
      rw [ih (n / 10) _ (by omega), List.foldl_cons, hd]
      congr 1; omega

theorem toDigitsCore_ne_nil (fuel n : Nat) (ds : Str) :
    Nat.toDigitsCore 10 (fuel + 1) n ds ≠ [] := by
  induction fuel generalizing n ds with
  | zero =>
    rw [Nat.toDigitsCore]
    by_cases h0 : n / 10 = 0 <;> simp [h0, Nat.toDigitsCore]
  | succ fuel ih =>
    rw [Nat.toDigitsCore]
    by_cases h0 : n / 10 = 0
    · simp [h0]
    · simpa [h0] using ih _ _

theorem decimalDigits_ne_nil (n : Nat) : decimalDigits n ≠ [] :=
  toDigitsCore_ne_nil _ _ _

theorem decimalDigits_isDigit (n : Nat) : ∀ c ∈ decimalDigits n, isDigit c = true :=
  toDigitsCore_digits _ _ _ (by simp)

theorem decimalDigits_value (n : Nat) :
    (decimalDigits n).foldl (fun acc c => acc * 10 + (c.toNat - 48)) 0 = n := by
  unfold decimalDigits Nat.toDigits
  rw [toDigitsCore_value _ _ _ (Nat.lt_succ_self n)]
  rfl

theorem foldl_zeros (z : Nat) : ∀ a : Nat,
    (List.replicate z '0').foldl (fun acc c => acc * 10 + (c.toNat - 48)) a = a * 10 ^ z := by
  induction z with
  | zero => intro a; simp
  | succ z ih =>
    intro a
    rw [List.replicate_succ, List.foldl_cons, ih]
    have h0 : ('0' : Char).toNat - 48 = 0 := by decide
    rw [h0, Nat.pow_succ]
    ring

/-- The numeral made of the digits of `s` and `z` zeros reads as
`s * 10^z`. -/
theorem parseIntDigits_numeral (s z : Nat) :
    parseIntDigits (decimalDigits s ++ List.replicate z '0') = some (false, s * 10 ^ z) := by
  rw [parseIntDigits_digits]
  · rw [List.foldl_append, decimalDigits_value, foldl_zeros]
  · intro h
    exact decimalDigits_ne_nil s (List.append_eq_nil.mp h).1
  · intro c hc
    rcases List.mem_append.mp hc with h | h
    · exact decimalDigits_isDigit s c h
    · rw [(List.mem_replicate.mp h).2]; decide

theorem mem_digitCandidates {x k z : Nat} {c : Nat × Nat} (h : c ∈ digitCandidates x k z) :
    roundToDouble (c.1 * 10 ^ c.2) = JSNat.finite x := by
  unfold digitCandidates at h
  simp only [] at h
  obtain ⟨s, hs, rfl⟩ := List.mem_map.mp h
  have := (List.mem_filter.mp hs).2
  simp only [decide_eq_true_eq] at this
  exact this.2.2

/-- The numeral chosen for a double denotes a number that rounds to it. -/
theorem shortestDigits_valid (x : Nat) (hx : roundToDouble x = JSNat.finite x) :
    roundToDouble ((shortestDigits x).1 * 10 ^ (shortestDigits x).2) = JSNat.finite x := by
  unfold shortestDigits
  simp only []
  cases hl : ((List.range (decimalDigits x).length).flatMap (fun i =>
      digitCandidates x (i + 1) ((decimalDigits x).length - (i + 1)) ++
        digitCandidates x (i + 1) ((decimalDigits x).length - i))) with
  | nil => simpa using hx
  | cons c l =>
    have hc : c ∈ ((List.range (decimalDigits x).length).flatMap (fun i =>
        digitCandidates x (i + 1) ((decimalDigits x).length - (i + 1)) ++
          digitCandidates x (i + 1) ((decimalDigits x).length - i))) := by
      rw [hl]; exact List.mem_cons_self _ _
    obtain ⟨i, _, hi⟩ := List.mem_flatMap.mp hc
    rw [List.head?_cons, Option.getD_some]
    rcases List.mem_append.mp hi with h | h
    · exact mem_digitCandidates h
    · exact mem_digitCandidates h

/-- Reading back the numeral written for a page that is a double, at least 1
and below `10^21`, gives the page. -/
theorem readPage_numberToString (x : Nat) (h1 : 1 ≤ x) (hlt : x < 10 ^ 21)
    (hx : roundToDouble x = JSNat.finite x) :
    readPage (some (numberToString (JSNat.finite x))) = JSNat.finite x := by
  have h0 : x ≠ 0 := by omega
  have hs : numberToString (JSNat.finite x) =
      decimalDigits (shortestDigits x).1 ++ List.replicate (shortestDigits x).2 '0' := by
    simp only [numberToString, h0, if_false, hlt, if_true]
  have hne : numberToString (JSNat.finite x) ≠ [] := by
    rw [hs]
    intro h
    exact decimalDigits_ne_nil _ (List.append_eq_nil.mp h).1
  have he : orDefault (some (numberToString (JSNat.finite x))) "1".toList =
      numberToString (JSNat.finite x) := by
    cases hn : numberToString (JSNat.finite x) with
    | nil => exact absurd hn hne
    | cons a b => rfl
  have hz : JSNat.finite x ≠ 0 := by
    intro h
    exact h0 (JSNat.finite.inj h)
  rw [readPage, he, hs, parseInt, parseIntDigits_numeral]
  simp only [shortestDigits_valid x hx, hz, if_false, Bool.false_eq_true]
/-! ### URL state codec -/

theorem uniq_of_nodup {α : Type} [DecidableEq α] : ∀ l : List α, l.Nodup → uniq l = l := by
  intro l
  induction l with
  | nil => intro _; rfl
  | cons x l ih =>
    intro h
    rw [List.nodup_cons] at h
    rw [uniq, ih h.2, List.filter_eq_self.mpr]
    intro y hy
    have hne : y ≠ x := fun e => h.1 (e ▸ hy)
    simpa using hne

theorem parseCSV_toCSV (l : List Str)
    (hl : ∀ c ∈ l, c ≠ [] ∧ ',' ∉ c ∧ trim c = c) : parseCSV (some (toCSV l)) = l := by
  cases l with
  | nil => decide
  | cons a l =>
    have hs : (toCSV (a :: l)).splitOn ',' = a :: l :=
      List.splitOn_intercalate _ ',' (fun c hc => (hl c hc).2.1) (List.cons_ne_nil _ _)
    unfold parseCSV
    rw [Option.getD_some, hs]
    have hm : (a :: l).map trim = a :: l := by
      conv_rhs => rw [← List.map_id (a :: l)]
      exact List.map_congr_left fun c hc => (hl c hc).2.2
    rw [hm, List.filter_eq_self]
    intro c hc
    have := (hl c hc).1
    cases c with
    | nil => exact absurd rfl this
    | cons _ _ => rfl

theorem paramsGet_update_same (c : Prop) [Decidable c] (p : Params) (k v : Str) :
    paramsGet (if c then paramsSet p k v else paramsDelete p k) k =
      if c then some v else none := by
  split_ifs
  · exact paramsGet_set_same p k v
  · exact paramsGet_delete_same p k

theorem paramsGet_update_ne (c : Prop) [Decidable c] (p : Params) {k k2 : Str} (v : Str)
    (hk : k ≠ k2) :
    paramsGet (if c then paramsSet p k2 v else paramsDelete p k2) k = paramsGet p k := by
  split_ifs
  · exact paramsGet_set_ne p v hk
  · exact paramsGet_delete_ne p hk

theorem paramsGet_write_q (p : Params) (st : UIState) :
    paramsGet (writeURLState p st) "q".toList =
      if trim st.q ≠ [] then some (trim st.q) else none := by
  unfold writeURLState
  simp (disch := decide) only [paramsGet_update_ne, paramsGet_update_same]


theorem paramsGet_write_chips (p : Params) (st : UIState) :
    paramsGet (writeURLState p st) "chips".toList =
      if st.chips.length ≠ 0 then some (toCSV st.chips) else none := by
  unfold writeURLState
  simp (disch := decide) only [paramsGet_update_ne, paramsGet_update_same]

theorem paramsGet_write_sort (p : Params) (st : UIState) :
    paramsGet (writeURLState p st) "sort".toList =
      if orDefault (some st.sort) "name".toList ≠ "name".toList
      then some (orDefault (some st.sort) "name".toList) else none := by
  unfold writeURLState
  simp (disch := decide) only [paramsGet_update_ne, paramsGet_update_same]

theorem paramsGet_write_avail (p : Params) (st : UIState) :
    paramsGet (writeURLState p st) "avail".toList =
      if orDefault (some st.avail) "all".toList ≠ "all".toList
      then some (orDefault (some st.avail) "all".toList) else none := by
  unfold writeURLState
  simp (disch := decide) only [paramsGet_update_ne, paramsGet_update_same]

theorem paramsGet_write_fav (p : Params) (st : UIState) :
    paramsGet (writeURLState p st) "fav".toList =
      if st.favOnly = true then some "1".toList else none := by
  unfold writeURLState
  simp (disch := decide) only [paramsGet_update_ne, paramsGet_update_same]

theorem paramsGet_write_page (p : Params) (st : UIState) :
    paramsGet (writeURLState p st) "page".toList =
      if st.page ≠ 0 ∧ st.page ≠ 1
      then some (numberToString (if st.page = 0 then 1 else st.page)) else none := by
  unfold writeURLState
  simp (disch := decide) only [paramsGet_update_ne, paramsGet_update_same]

theorem orDefault_some_of_ne_nil {s d : Str} (h : s ≠ []) : orDefault (some s) d = s := by
  cases s with
  | nil => exact absurd rfl h
  | cons _ _ => rfl

/-- C2 (amended): when the search text has no leading or trailing white space,
every chip label is non-empty, free of commas and of leading or trailing
white space, and the page is a number of at least 1 and below `10^21`,
decoding with `readURLState` the parameters produced by `writeURLState` gives
back the state: the same search text, chips, sort, availability filter,
favourites flag and page. -/
theorem C2_url_round_trip (p : Params) (st : UIState) (n : Nat)
    (hq : trim st.q = st.q)
    (hnd : st.chips.Nodup)
    (hchips : ∀ c ∈ st.chips, c ≠ [] ∧ ',' ∉ c ∧ trim c = c)
    (hsort : st.sort ∈ ["name".toList, "year".toList, "availability".toList])
    (havail : st.avail ∈
      ["all".toList, "available".toList, "limited".toList, "unavailable".toList])
    (hpage : st.page = JSNat.finite n) (hone : 1 ≤ n) (hbound : n < 10 ^ 21)
    (hdouble : roundToDouble n = JSNat.finite n) :
    readURLState (writeURLState p st) = st := by
  obtain ⟨q, chips, sort, avail, favOnly, page⟩ := st
  simp only at hq hnd hchips hsort havail hpage
  subst hpage
  have hsne : sort ≠ [] := by
    rintro rfl; exact absurd hsort (by decide)
  have hane : avail ≠ [] := by
    rintro rfl; exact absurd havail (by decide)
  have e1 : orDefault (paramsGet
      (writeURLState p ⟨q, chips, sort, avail, favOnly, JSNat.finite n⟩) "q".toList) [] = q := by
    rw [paramsGet_write_q]
    simp only [hq]
    by_cases h : q = []
    · simp [h, orDefault]
    · simp [h, orDefault_some_of_ne_nil h]
  have e2 : uniq (parseCSV (paramsGet
      (writeURLState p ⟨q, chips, sort, avail, favOnly, JSNat.finite n⟩) "chips".toList)) =
        chips := by
    rw [paramsGet_write_chips]
    simp only []
    by_cases h : chips = []
    · subst h; decide
    · have hl : chips.length ≠ 0 := fun e => h (List.length_eq_zero.mp e)
      rw [if_pos hl, parseCSV_toCSV _ hchips, uniq_of_nodup _ hnd]
  have e3 : orDefault (paramsGet
      (writeURLState p ⟨q, chips, sort, avail, favOnly, JSNat.finite n⟩) "sort".toList)
        "name".toList = sort := by
    rw [paramsGet_write_sort]
    simp only [orDefault_some_of_ne_nil hsne]
    by_cases h : sort = "name".toList
    · rw [if_neg (not_not.mpr h), h]; rfl
    · rw [if_pos h, orDefault_some_of_ne_nil hsne]
  have e4 : orDefault (paramsGet
      (writeURLState p ⟨q, chips, sort, avail, favOnly, JSNat.finite n⟩) "avail".toList)
        "all".toList = avail := by
    rw [paramsGet_write_avail]
    simp only [orDefault_some_of_ne_nil hane]
    by_cases h : avail = "all".toList
    · rw [if_neg (not_not.mpr h), h]; rfl
    · rw [if_pos h, orDefault_some_of_ne_nil hane]
  have e5 : (paramsGet
      (writeURLState p ⟨q, chips, sort, avail, favOnly, JSNat.finite n⟩) "fav".toList ==
        some "1".toList) = favOnly := by
    rw [paramsGet_write_fav]
    cases favOnly <;> simp
  have e6 : readPage (paramsGet
      (writeURLState p ⟨q, chips, sort, avail, favOnly, JSNat.finite n⟩) "page".toList) =
        JSNat.finite n := by
    rw [paramsGet_write_page]
    simp only []
    by_cases h : n = 1
    · subst h; decide
    · have h0 : JSNat.finite n ≠ 0 := fun e => by
        have hn : n = 0 := JSNat.finite.inj (show JSNat.finite n = JSNat.finite 0 from e)
        omega
      have h1 : JSNat.finite n ≠ 1 := fun e =>
        h (JSNat.finite.inj (show JSNat.finite n = JSNat.finite 1 from e))
      rw [if_pos ⟨h0, h1⟩, if_neg h0, readPage_numberToString n hone hbound hdouble]
  rw [readURLState, e1, e2, e3, e4, e5, e6]

set_option maxRecDepth 100000 in
/-- C2 as stated fails: a search text with a leading blank comes back
trimmed, a chip label holding a comma comes back as two labels, a chip label
with a leading blank comes back trimmed, and the page `10^21`, written
`1e+21`, comes back as 1. -/
theorem C2_counterexample :
    readURLState (writeURLState [] { q := " a".toList }) ≠ { q := " a".toList } ∧
    readURLState (writeURLState [] { chips := ["a,b".toList] }) ≠ { chips := ["a,b".toList] } ∧
    readURLState (writeURLState [] { chips := [" a".toList] }) ≠ { chips := [" a".toList] } ∧
    roundToDouble (10 ^ 21) = JSNat.finite (10 ^ 21) ∧
    numberToString (JSNat.finite (10 ^ 21)) = "1e+21".toList ∧
    readURLState (writeURLState [] { page := JSNat.finite (10 ^ 21) }) = { page := 1 } := by
  decide

/-- C2 (amended) at a state with every field away from its default, written
over a URL that already carries a page parameter. -/
theorem C2_url_round_trip_witness :
    readURLState (writeURLState [("page".toList, "7".toList)]
      { q := "signal processing".toList, chips := ["AI".toList, "Robotics".toList],
        sort := "year".toList, avail := "limited".toList, favOnly := true, page := 3 }) =
      { q := "signal processing".toList, chips := ["AI".toList, "Robotics".toList],
        sort := "year".toList, avail := "limited".toList, favOnly := true, page := 3 } :=
  C2_url_round_trip _ _ 3 (by decide) (by decide) (by decide) (by decide) (by decide) rfl
    (by decide) (by decide) (by decide)

/-! ### Filters -/

theorem availabilityBucket_cases (lower : Str → Str) (m : Mentor) :
    availabilityBucket lower m = "available".toList ∨
      availabilityBucket lower m = "limited".toList ∨
      availabilityBucket lower m = "unavailable".toList := by
  unfold availabilityBucket
  simp only []
  split_ifs <;> simp

/-- Every mentor falls in exactly one bucket, so the three bucket counts add
up to the length of the list. -/
theorem bucket_partition (lower : Str → Str) (l : List Mentor) :
    l.length =
      (l.filter (fun m => availabilityBucket lower m == "available".toList)).length +
      (l.filter (fun m => availabilityBucket lower m == "limited".toList)).length +
      (l.filter (fun m => availabilityBucket lower m == "unavailable".toList)).length := by
  induction l with
  | nil => rfl
  | cons m l ih =>
    have h1 : ("available".toList == "limited".toList) = false := by decide
    have h2 : ("available".toList == "unavailable".toList) = false := by decide
    have h3 : ("limited".toList == "available".toList) = false := by decide
    have h4 : ("limited".toList == "unavailable".toList) = false := by decide
    have h5 : ("unavailable".toList == "available".toList) = false := by decide
    have h6 : ("unavailable".toList == "limited".toList) = false := by decide
    rcases availabilityBucket_cases lower m with h | h | h <;>
      simp only [List.filter_cons, h, h1, h2, h3, h4, h5, h6, beq_self_eq_true, if_true,
        Bool.false_eq_true, if_false, List.length_cons] <;> omega

/-- C3: the availability counts of `renderCards` satisfy
`all = available + limited + unavailable`, and `all` is the number of mentors
that pass the search, chip and favourites filters, the availability filter
being left out. -/
theorem C3_counts_sum (lower : Str → Str) (st : UIState) (favs : List Nat)
    (mentors : List Mentor) :
    (availabilityCounts lower st favs mentors).all =
      (availabilityCounts lower st favs mentors).available +
      (availabilityCounts lower st favs mentors).limited +
      (availabilityCounts lower st favs mentors).unavailable ∧
    (availabilityCounts lower st favs mentors).all =
      (mentors.filter (fun m => qOk lower st m && chipOk st m && favOk st favs m)).length := by
  refine ⟨bucket_partition lower _, ?_⟩
  simp only [availabilityCounts, baseFiltered]
  congr 2
  funext m
  simp [«matches», qOk, chipOk, availOk, favOk]

theorem chipOk_iff (st : UIState) (m : Mentor) :
    chipOk st m = true ↔ ∀ sel ∈ st.chips, sel ∈ m.interests.getD [] := by
  simp only [chipOk, Bool.or_eq_true, beq_iff_eq, List.length_eq_zero, List.all_eq_true,
    List.elem_iff, List.contains]
  constructor
  · rintro (h | h)
    · rw [h]; intro sel hs; exact absurd hs (List.not_mem_nil _)
    · exact h
  · exact fun h => Or.inr h

theorem mem_setAdd (s : List Str) (x y : Str) : y ∈ setAdd s x ↔ y ∈ s ∨ y = x := by
  unfold setAdd
  split_ifs with h
  · constructor
    · exact Or.inl
    · rintro (h1 | rfl)
      · exact h1
      · exact List.elem_iff.mp h
  · simp

/-- C4: selecting one more chip never adds a mentor.  Every mentor matching
with the chip set `S ∪ {c}` matches with `S`, the filtered result with the
extra chip is a sub-list of the one without it, and a mentor passes the chip
filter exactly when every selected chip is among its interests. -/
theorem C4_chip_monotone (lower : Str → Str) (st : UIState) (favs : List Nat)
    (mentors : List Mentor) (c : Str) :
    (∀ m, «matches» lower { st with chips := setAdd st.chips c } favs m = true →
      «matches» lower st favs m = true) ∧
    (filtered lower { st with chips := setAdd st.chips c } favs mentors).Sublist
      (filtered lower st favs mentors) ∧
    (∀ m, chipOk st m = true ↔ ∀ sel ∈ st.chips, sel ∈ m.interests.getD []) := by
  have hmono : ∀ m, «matches» lower { st with chips := setAdd st.chips c } favs m = true →
      «matches» lower st favs m = true := by
    intro m h
    simp only [«matches», Bool.and_eq_true] at h ⊢
    obtain ⟨⟨⟨h1, h2⟩, h3⟩, h4⟩ := h
    refine ⟨⟨⟨h1, ?_⟩, h3⟩, h4⟩
    rw [chipOk_iff] at h2 ⊢
    intro sel hs
    exact h2 sel ((mem_setAdd _ _ _).mpr (Or.inl hs))
  exact ⟨hmono, List.monotone_filter_right _ hmono, chipOk_iff st⟩

/-- C5: switching favourites-only on restricts the filtered result to the
mentors whose id is in the favourites set; switching it off again gives back
the earlier filtered result. -/
theorem C5_favorites_toggle (lower : Str → Str) (st : UIState) (favs : List Nat)
    (mentors : List Mentor)
    (hoff : st.favOnly = false) :
    filtered lower (toggleFavOnly st) favs mentors =
      (filtered lower st favs mentors).filter (fun m => favs.contains m.id) ∧
    filtered lower (toggleFavOnly (toggleFavOnly st)) favs mentors =
      filtered lower st favs mentors := by
  constructor
  · simp only [filtered, List.filter_filter]
    congr 1
    funext m
    simp [«matches», qOk, chipOk, availOk, favOk, toggleFavOnly, hoff, Bool.and_comm]
  · simp only [filtered]
    congr 1
    funext m
    simp [«matches», qOk, chipOk, availOk, favOk, toggleFavOnly]

/-- C5 on two sample mentors, with the favourites set `{1}` and the
lower-casing of ASCII text. -/
theorem C5_favorites_toggle_witness :
    filtered asciiLowerCase (toggleFavOnly defaultState) [1] [ann, mentorWeekends] =
      (filtered asciiLowerCase defaultState [1] [ann, mentorWeekends]).filter
        (fun m => [1].contains m.id) ∧
    filtered asciiLowerCase (toggleFavOnly (toggleFavOnly defaultState)) [1]
        [ann, mentorWeekends] =
      filtered asciiLowerCase defaultState [1] [ann, mentorWeekends] :=
  C5_favorites_toggle asciiLowerCase defaultState [1] [ann, mentorWeekends] rfl

/-! ### Sorting -/

theorem orderedInsert_perm {α : Type} (cmp : α → α → Int) (a : α) (l : List α) :
    (orderedInsert cmp a l).Perm (a :: l) := by
  induction l with
  | nil => exact List.Perm.refl _
  | cons b l ih =>
    rw [orderedInsert]
    split_ifs
    · exact List.Perm.refl _
    · exact (List.Perm.cons b ih).trans (List.Perm.swap a b l)

theorem jsSort_perm {α : Type} (cmp : α → α → Int) (l : List α) : (jsSort cmp l).Perm l := by
  induction l with
  | nil => exact List.Perm.refl _
  | cons a l ih => exact (orderedInsert_perm cmp a _).trans (List.Perm.cons a ih)

/-- Inserting `a` leaves the elements selected by `p` in their order, when any
two selected elements compare as "not after". -/
theorem orderedInsert_filter {α : Type} (cmp : α → α → Int) (p : α → Bool)
    (hp : ∀ a b, p a = true → p b = true → cmp a b ≤ 0) (a : α) (l : List α) :
    (orderedInsert cmp a l).filter p = (a :: l).filter p := by
  induction l with
  | nil => rfl
  | cons b l ih =>
    rw [orderedInsert]
    split_ifs with h
    · rfl
    · rw [List.filter_cons, ih]
      by_cases hb : p b = true
      · have ha : p a = false := by
          cases hpa : p a with
          | false => rfl
          | true => exact absurd (hp a b hpa hb) h
        simp [List.filter_cons, ha, hb]
      · simp [List.filter_cons, hb]

/-- Stability of `jsSort`. -/
theorem jsSort_filter {α : Type} (cmp : α → α → Int) (p : α → Bool)
    (hp : ∀ a b, p a = true → p b = true → cmp a b ≤ 0) (l : List α) :
    (jsSort cmp l).filter p = l.filter p := by
  induction l with
  | nil => rfl
  | cons a l ih =>
    rw [jsSort, orderedInsert_filter cmp p hp, List.filter_cons, List.filter_cons, ih]

theorem orderedInsert_pairwise {α : Type} (cmp : α → α → Int)
    (htot : ∀ a b, cmp a b ≤ 0 ∨ cmp b a ≤ 0)
    (htr : ∀ a b c, cmp a b ≤ 0 → cmp b c ≤ 0 → cmp a c ≤ 0) (a : α) (l : List α)
    (hl : l.Pairwise (fun x y => cmp x y ≤ 0)) :
    (orderedInsert cmp a l).Pairwise (fun x y => cmp x y ≤ 0) := by
  induction l with
  | nil => exact List.pairwise_singleton _ _
  | cons b l ih =>
    rw [List.pairwise_cons] at hl
    rw [orderedInsert]
    split_ifs with h
    · refine List.pairwise_cons.mpr ⟨?_, List.pairwise_cons.mpr hl⟩
      intro x hx
      rcases List.mem_cons.mp hx with rfl | hx
      · exact h
      · exact htr _ _ _ h (hl.1 x hx)
    · refine List.pairwise_cons.mpr ⟨?_, ih hl.2⟩
      intro x hx
      rcases List.mem_cons.mp ((orderedInsert_perm cmp a l).mem_iff.mp hx) with rfl | hx
      · exact (htot x b).resolve_left h
      · exact hl.1 x hx

/-- The result of `jsSort` is in order, for a comparator that is total and
transitive. -/
theorem jsSort_pairwise {α : Type} (cmp : α → α → Int)
    (htot : ∀ a b, cmp a b ≤ 0 ∨ cmp b a ≤ 0)
    (htr : ∀ a b c, cmp a b ≤ 0 → cmp b c ≤ 0 → cmp a c ≤ 0) (l : List α) :
    (jsSort cmp l).Pairwise (fun x y => cmp x y ≤ 0) := by
  induction l with
  | nil => exact List.Pairwise.nil
  | cons a l ih => exact orderedInsert_pairwise cmp htot htr a _ ih

theorem sortMentors_perm (lc : Str → Str → Int) (st : UIState) (l : List Mentor) :
    (sortMentors lc st l).Perm l := by
  unfold sortMentors
  simp only []
  split_ifs
  · exact jsSort_perm _ _
  · exact jsSort_perm _ _
  · exact jsSort_perm _ _
  · exact List.Perm.refl _

theorem codePointCompare_total (a : Str) :
    ∀ b, codePointCompare a b ≤ 0 ∨ codePointCompare b a ≤ 0 := by
  induction a with
  | nil => intro b; cases b <;> simp [codePointCompare]
  | cons x a ih =>
    intro b
    cases b with
    | nil => simp [codePointCompare]
    | cons y b =>
      simp only [codePointCompare]
      split_ifs <;> first | omega | exact ih b

theorem codePointCompare_trans (a : Str) : ∀ b c,
    codePointCompare a b ≤ 0 → codePointCompare b c ≤ 0 → codePointCompare a c ≤ 0 := by
  induction a with
  | nil => intro b c _ _; cases c <;> simp [codePointCompare]
  | cons x a ih =>
    intro b c
    cases b with
    | nil => simp [codePointCompare]
    | cons y b =>
      cases c with
      | nil => simp [codePointCompare]
      | cons z c =>
        simp only [codePointCompare]
        split_ifs <;> first | omega | (intro _ _; omega) | exact ih b c

/-! ### Pagination -/

theorem loadMore_iterate (k n : Nat) (st : UIState) (hn : st.page = JSNat.finite n) :
    loadMore^[k] st = { st with page := JSNat.finite (n + k) } := by
  induction k with
  | zero =>
    obtain ⟨q, chips, sort, avail, favOnly, page⟩ := st
    simp only at hn
    rw [hn]
    rfl
  | succ k ih =>
    rw [Function.iterate_succ_apply', ih]
    rfl

/-- The sorted result does not depend on the page number. -/
theorem sorted_page (lower : Str → Str) (lc : Str → Str → Int) (st : UIState)
    (favs : List Nat) (mentors : List Mentor) (n : JSNat) :
    sorted lower lc { st with page := n } favs mentors = sorted lower lc st favs mentors := by
  have hf : filtered lower { st with page := n } favs mentors =
      filtered lower st favs mentors := by
    simp only [filtered]
    congr 1
  rw [sorted, sorted, hf]
  rfl

/-- C6: from page 1, after `k` clicks on "Load more" with no other change the
page is `k + 1`, the number of mentors rendered is
`min ((k + 1) * 12) totalMatches`, and the rendered list is the start of the
sorted result. -/
theorem C6_pagination (lower : Str → Str) (lc : Str → Str → Int) (st : UIState)
    (favs : List Nat) (mentors : List Mentor) (k : Nat) (hpage : st.page = 1) :
    (loadMore^[k] st).page = JSNat.finite (k + 1) ∧
    (pageList lower lc (loadMore^[k] st) favs mentors).length =
      min ((k + 1) * 12) (filtered lower st favs mentors).length ∧
    pageList lower lc (loadMore^[k] st) favs mentors <+: sorted lower lc st favs mentors := by
  rw [loadMore_iterate k 1 st hpage]
  have hlen : (sorted lower lc st favs mentors).length =
      (filtered lower st favs mentors).length :=
    (sortMentors_perm lc st _).length_eq
  have e : pageList lower lc { st with page := JSNat.finite (1 + k) } favs mentors =
      (sorted lower lc st favs mentors).take ((1 + k) * 12) := by
    rw [pageList, sorted_page]
    rfl
  refine ⟨by simp only []; rw [Nat.add_comm], ?_, ?_⟩
  · rw [e, List.length_take, hlen, Nat.add_comm]
  · rw [e]
    exact List.take_prefix _ _

/-- C6 at three clicks over a list of thirty copies of the sample mentor,
with the lower-casing of ASCII text and code-point order. -/
theorem C6_pagination_witness :
    (loadMore^[3] defaultState).page = JSNat.finite (3 + 1) ∧
    (pageList asciiLowerCase codePointCompare (loadMore^[3] defaultState) []
        (List.replicate 30 ann)).length =
      min ((3 + 1) * 12) (filtered asciiLowerCase defaultState [] (List.replicate 30 ann)).length ∧
    pageList asciiLowerCase codePointCompare (loadMore^[3] defaultState) []
        (List.replicate 30 ann) <+:
      sorted asciiLowerCase codePointCompare defaultState [] (List.replicate 30 ann) :=
  C6_pagination asciiLowerCase codePointCompare defaultState [] (List.replicate 30 ann) 3 rfl

/-! ### Sort modes -/

/-- C7 at a failing input: in the sort mode `availability` a mentor of the
`limited` bucket is put before a mentor of the `available` bucket whose
availability text is not the exact word `Available`, whatever the collation;
the rank used by the sort is `availabilityRank` of the raw text.  The buckets
are computed with the lower-casing of ASCII text, the two availability texts
being ASCII. -/
theorem C7_rank_not_bucket (lc : Str → Str → Int) :
    sortMentors lc { sort := "availability".toList } [mentorLimited, mentorWeekends] =
      [mentorLimited, mentorWeekends] ∧
    availabilityBucket asciiLowerCase mentorLimited = "limited".toList ∧
    availabilityBucket asciiLowerCase mentorWeekends = "available".toList ∧
    availabilityRank mentorLimited.availability = 1 ∧
    availabilityRank mentorWeekends.availability = 2 := by
  refine ⟨?_, by decide, by decide, by decide, by decide⟩
  have h1 : ("availability".toList : Str) ≠ "name".toList := by decide
  have h2 : ("availability".toList : Str) ≠ "year".toList := by decide
  have hr1 : availabilityRank mentorLimited.availability = 1 := by decide
  have hr2 : availabilityRank mentorWeekends.availability = 2 := by decide
  simp [sortMentors, h1, h2, jsSort, orderedInsert, compareAvailability, hr1, hr2]

/-- C8: `sortMentors` returns a permutation of its input (the input itself is
a value and is not touched).  For a collation `lc` that is total and
transitive, in the mode `name` the result is in ascending order of name and in
the mode `year` in non-increasing order of graduation year, a missing name
counting as empty and a missing year as 0; mentors with the same key keep
their input order. -/
theorem C8_sort_modes (lc : Str → Str → Int)
    (htot : ∀ a b, lc a b ≤ 0 ∨ lc b a ≤ 0)
    (htr : ∀ a b c, lc a b ≤ 0 → lc b c ≤ 0 → lc a c ≤ 0)
    (st : UIState) (l : List Mentor) :
    (sortMentors lc st l).Perm l ∧
    (st.sort = "name".toList →
      (sortMentors lc st l).Pairwise
        (fun a b => lc (a.name.getD []) (b.name.getD []) ≤ 0) ∧
      ∀ n : Str, (sortMentors lc st l).filter (fun m => m.name.getD [] = n) =
        l.filter (fun m => m.name.getD [] = n)) ∧
    (st.sort = "year".toList →
      (sortMentors lc st l).Pairwise
        (fun a b => b.gradYear.getD 0 ≤ a.gradYear.getD 0) ∧
      ∀ y : Nat, (sortMentors lc st l).filter (fun m => m.gradYear.getD 0 = y) =
        l.filter (fun m => m.gradYear.getD 0 = y)) := by
  refine ⟨sortMentors_perm lc st l, fun hs => ?_, fun hs => ?_⟩
  · have e : sortMentors lc st l = jsSort (compareName lc) l := by
      simp [sortMentors, hs]
    rw [e]
    refine ⟨jsSort_pairwise (compareName lc) (fun a b => htot _ _)
      (fun a b c => htr _ _ _) l, fun n => ?_⟩
    apply jsSort_filter
    intro a b ha hb
    simp only [decide_eq_true_eq] at ha hb
    simp only [compareName, ha, hb]
    exact (htot n n).elim id id
  · have hne : ("year".toList : Str) ≠ "name".toList := by decide
    have e : sortMentors lc st l = jsSort compareYear l := by
      simp [sortMentors, hs, hne]
    rw [e]
    constructor
    · have h := jsSort_pairwise compareYear
        (fun a b => by simp only [compareYear]; omega)
        (fun a b c => by simp only [compareYear]; omega) l
      refine h.imp ?_
      intro a b hab
      simp only [compareYear] at hab
      omega
    · intro y
      apply jsSort_filter
      intro a b ha hb
      simp only [decide_eq_true_eq] at ha hb
      simp only [compareYear, ha, hb]
      omega

/-- C8 with code-point order as the collation, on a two-mentor list in the
mode `name`. -/
theorem C8_sort_modes_witness :
    (sortMentors codePointCompare defaultState [mentorWeekends, ann]).Perm
      [mentorWeekends, ann] ∧
    (defaultState.sort = "name".toList →
      (sortMentors codePointCompare defaultState [mentorWeekends, ann]).Pairwise
        (fun a b => codePointCompare (a.name.getD []) (b.name.getD []) ≤ 0) ∧
      ∀ n : Str, (sortMentors codePointCompare defaultState
          [mentorWeekends, ann]).filter (fun m => m.name.getD [] = n) =
        [mentorWeekends, ann].filter (fun m => m.name.getD [] = n)) ∧
    (defaultState.sort = "year".toList →
      (sortMentors codePointCompare defaultState [mentorWeekends, ann]).Pairwise
        (fun a b => b.gradYear.getD 0 ≤ a.gradYear.getD 0) ∧
      ∀ y : Nat, (sortMentors codePointCompare defaultState
          [mentorWeekends, ann]).filter (fun m => m.gradYear.getD 0 = y) =
        [mentorWeekends, ann].filter (fun m => m.gradYear.getD 0 = y)) :=
  C8_sort_modes codePointCompare (fun a b => codePointCompare_total a b)
    (fun a b c => codePointCompare_trans a b c) defaultState [mentorWeekends, ann]

/-! ### Highlighting -/

theorem replaceAll_append (c : Char) (r a b : Str) :
    replaceAll c r (a ++ b) = replaceAll c r a ++ replaceAll c r b := by
  simp [replaceAll]

theorem escapeHTML_append (a b : Str) : escapeHTML (a ++ b) = escapeHTML a ++ escapeHTML b := by
  simp only [escapeHTML, replaceAll_append]

/-- Replacing `c` leaves no `c`, when the replacement has none. -/
theorem not_mem_replaceAll_self (c : Char) (r s : Str) (hr : c ∉ r) : c ∉ replaceAll c r s := by
  unfold replaceAll
  rw [List.mem_flatMap]
  rintro ⟨x, _, hx⟩
  split_ifs at hx with h
  · exact hr hx
  · exact h (List.mem_singleton.mp hx).symm

/-- Replacing another character brings no `c` in, when the replacement has
none. -/
theorem not_mem_replaceAll (c d : Char) (r s : Str) (hr : c ∉ r) (hs : c ∉ s) :
    c ∉ replaceAll d r s := by
  unfold replaceAll
  rw [List.mem_flatMap]
  rintro ⟨x, hxs, hx⟩
  split_ifs at hx with h
  · exact hr hx
  · exact hs ((List.mem_singleton.mp hx) ▸ hxs)

theorem lt_not_mem_escapeHTML (s : Str) : '<' ∉ escapeHTML s := by
  unfold escapeHTML
  exact not_mem_replaceAll _ _ _ _ (by decide)
    (not_mem_replaceAll _ _ _ _ (by decide)
      (not_mem_replaceAll _ _ _ _ (by decide)
        (not_mem_replaceAll_self _ _ _ (by decide))))

theorem gt_not_mem_escapeHTML (s : Str) : '>' ∉ escapeHTML s := by
  unfold escapeHTML
  exact not_mem_replaceAll _ _ _ _ (by decide)
    (not_mem_replaceAll _ _ _ _ (by decide)
      (not_mem_replaceAll_self _ _ _ (by decide)))

theorem stripMarksGo_skip (a : Str) : ∀ (k : Nat) (b : Str),
    stripMarksGo (a.length + k) (a ++ b) = stripMarksGo k b := by
  induction a with
  | nil => intro k b; simp
  | cons c a ih =>
    intro k b
    have e : (c :: a).length + k = (a.length + k) + 1 := by simp; omega
    rw [e, List.cons_append, stripMarksGo, ih]

theorem stripMarks_open (b : Str) : stripMarks ("<mark>".toList ++ b) = stripMarks b := by
  have e : "<mark>".toList ++ b = '<' :: ("mark>".toList ++ b) := rfl
  have hp : "<mark>".toList.isPrefixOf ('<' :: ("mark>".toList ++ b)) = true := by
    rw [← e, List.isPrefixOf_iff_prefix]
    exact List.prefix_append _ _
  rw [stripMarks, e, stripMarksGo, if_pos hp]
  exact stripMarksGo_skip "mark>".toList 0 b

theorem stripMarks_close (b : Str) : stripMarks ("</mark>".toList ++ b) = stripMarks b := by
  have e : "</mark>".toList ++ b = '<' :: ("/mark>".toList ++ b) := rfl
  have hn : "<mark>".toList.isPrefixOf ('<' :: ("/mark>".toList ++ b)) = false := by
    simp [List.isPrefixOf]
  have hp : "</mark>".toList.isPrefixOf ('<' :: ("/mark>".toList ++ b)) = true := by
    rw [← e, List.isPrefixOf_iff_prefix]
    exact List.prefix_append _ _
  rw [stripMarks, e, stripMarksGo, hn, if_neg (by simp), if_pos hp]
  exact stripMarksGo_skip "/mark>".toList 0 b

/-- A stretch without `<` passes through `stripMarks`. -/
theorem stripMarks_append_of_no_lt (a b : Str) (ha : '<' ∉ a) :
    stripMarks (a ++ b) = a ++ stripMarks b := by
  induction a with
  | nil => rfl
  | cons c a ih =>
    have hc : c ≠ '<' := fun e => ha (e ▸ List.mem_cons_self _ _)
    have h1 : "<mark>".toList.isPrefixOf (c :: (a ++ b)) = false := by
      simp [List.isPrefixOf, hc.symm]
    have h2 : "</mark>".toList.isPrefixOf (c :: (a ++ b)) = false := by
      simp [List.isPrefixOf, hc.symm]
    have ih' := ih (fun h => ha (List.mem_cons_of_mem _ h))
    rw [stripMarks] at ih' ⊢
    rw [List.cons_append, stripMarksGo, h1, h2, if_neg (by simp), if_neg (by simp), ih']
    rfl

theorem stripMarks_nil : stripMarks [] = [] := rfl

/-- Dropping the markers from the rendered parts leaves the escaped text of
the parts. -/
theorem stripMarks_render (parts : List Part) :
    stripMarks (parts.flatMap renderPart) = escapeHTML (parts.flatMap Part.content) := by
  induction parts with
  | nil => rfl
  | cons p parts ih =>
    rw [List.flatMap_cons, List.flatMap_cons, escapeHTML_append]
    cases p with
    | text s =>
      rw [renderPart, Part.content, stripMarks_append_of_no_lt _ _ (lt_not_mem_escapeHTML s), ih]
    | mark s =>
      rw [renderPart, Part.content, List.append_assoc, List.append_assoc, stripMarks_open,
        stripMarks_append_of_no_lt _ _ (lt_not_mem_escapeHTML s), stripMarks_close, ih]

theorem take_append_drop_pred (n : Nat) (hn : 0 < n) (c : Char) (cs : Str) :
    (c :: cs).take n ++ cs.drop (n - 1) = c :: cs := by
  cases n with
  | zero => exact absurd hn (Nat.lt_irrefl 0)
  | succ n =>
    simp only [List.take_succ_cons, Nat.add_sub_cancel, List.cons_append,
      List.take_append_drop]

/-- The parts a string is split into carry the string: matched and unmatched
pieces, in order. -/
theorem splitTokenGo_content (canon : Char → Char) (tok : Str) (htok : tok ≠ []) (s : Str) :
    ∀ (skip : Nat) (cur : Str),
      (splitTokenGo canon tok skip cur s).flatMap Part.content = cur.reverse ++ s.drop skip := by
  induction s with
  | nil =>
    intro skip cur
    simp [splitTokenGo, Part.content]
  | cons c cs ih =>
    intro skip cur
    cases skip with
    | succ k => rw [splitTokenGo, ih, List.drop_succ_cons]
    | zero =>
      rw [splitTokenGo]
      split_ifs with h
      · have hpos : 0 < tok.length := List.length_pos.mpr htok
        rw [List.flatMap_cons, List.flatMap_cons, ih, Part.content, Part.content,
          List.reverse_nil, List.nil_append, take_append_drop_pred _ hpos, List.drop_zero]
      · rw [ih, List.reverse_cons, List.append_assoc, List.drop_zero, List.drop_zero]
        rfl

theorem splitEmptyToken_content : ∀ s : Str,
    (splitEmptyToken s).flatMap Part.content = s
  | [] => rfl
  | [_] => rfl
  | c :: d :: cs => by
    rw [splitEmptyToken, List.flatMap_cons, List.flatMap_cons, splitEmptyToken_content (d :: cs)]
    rfl

theorem splitToken_content (canon : Char → Char) (tok s : Str) :
    (splitToken canon tok s).flatMap Part.content = s := by
  unfold splitToken
  split_ifs with h
  · exact splitEmptyToken_content s
  · have htok : tok ≠ [] := fun e => h (e ▸ rfl)
    rw [splitTokenGo_content canon tok htok]
    rfl

theorem highlightStep_content (canon : Char → Char) (tok : Str) (parts : List Part) :
    (highlightStep canon tok parts).flatMap Part.content = parts.flatMap Part.content := by
  induction parts with
  | nil => rfl
  | cons p parts ih =>
    rw [highlightStep] at ih ⊢
    rw [List.flatMap_cons, List.flatMap_append, ih, List.flatMap_cons]
    cases p with
    | text s => simp only [splitToken_content canon, Part.content]
    | mark s => simp [Part.content]

theorem foldl_highlightStep_content (canon : Char → Char) (tokens : List Str) :
    ∀ parts : List Part,
    (tokens.foldl (fun parts t => highlightStep canon t parts) parts).flatMap Part.content =
      parts.flatMap Part.content := by
  induction tokens with
  | nil => intro parts; rfl
  | cons t tokens ih =>
    intro parts
    rw [List.foldl_cons, ih, highlightStep_content canon]

theorem highlightParts_content (canon : Char → Char) (raw : Str) (tokens : List Str) :
    (highlightParts canon raw tokens).flatMap Part.content = raw := by
  rw [highlightParts, foldl_highlightStep_content canon]
  simp [Part.content]

/-- Where the expression matches, the matched characters are the token up to
the case folding. -/
theorem matchesAt_take (canon : Char → Char) {tok s : Str}
    (h : matchesAt canon tok s = true) :
    (s.take tok.length).map canon = tok.map canon := by
  unfold matchesAt at h
  rw [List.isPrefixOf_iff_prefix, List.prefix_iff_eq_take] at h
  rw [List.map_take, List.length_map] at *
  exact h.symm

theorem splitTokenGo_mark (canon : Char → Char) (tok : Str) (s : Str) :
    ∀ (skip : Nat) (cur seg : Str),
    Part.mark seg ∈ splitTokenGo canon tok skip cur s → seg.map canon = tok.map canon := by
  induction s with
  | nil =>
    intro skip cur seg h
    simp [splitTokenGo] at h
  | cons c cs ih =>
    intro skip cur seg h
    cases skip with
    | succ k =>
      rw [splitTokenGo] at h
      exact ih _ _ _ h
    | zero =>
      rw [splitTokenGo] at h
      split_ifs at h with hm
      · rcases List.mem_cons.mp h with h | h
        · exact absurd h (by simp)
        · rcases List.mem_cons.mp h with h | h
          · rw [Part.mark.injEq] at h
            rw [h]
            exact matchesAt_take canon hm
          · exact ih _ _ _ h
      · exact ih _ _ _ h

theorem splitEmptyToken_mark : ∀ (s seg : Str), Part.mark seg ∈ splitEmptyToken s → seg = []
  | [], _, h => by simp [splitEmptyToken] at h
  | [_], _, h => by simp [splitEmptyToken] at h
  | c :: d :: cs, seg, h => by
    rw [splitEmptyToken] at h
    rcases List.mem_cons.mp h with h | h
    · exact absurd h (by simp)
    · rcases List.mem_cons.mp h with h | h
      · rw [Part.mark.injEq] at h
        exact h
      · exact splitEmptyToken_mark (d :: cs) seg h

theorem splitToken_mark (canon : Char → Char) (tok s seg : Str)
    (h : Part.mark seg ∈ splitToken canon tok s) :
    seg.map canon = tok.map canon := by
  unfold splitToken at h
  split_ifs at h with he
  · rw [splitEmptyToken_mark s seg h, List.isEmpty_iff.mp he]
  · exact splitTokenGo_mark canon tok s 0 [] seg h

theorem highlightStep_mark (canon : Char → Char) (tok : Str) (parts : List Part) (seg : Str)
    (h : Part.mark seg ∈ highlightStep canon tok parts) :
    Part.mark seg ∈ parts ∨ seg.map canon = tok.map canon := by
  rw [highlightStep, List.mem_flatMap] at h
  obtain ⟨p, hp, hseg⟩ := h
  cases p with
  | text s => exact Or.inr (splitToken_mark canon tok s seg hseg)
  | mark s =>
    rw [List.mem_singleton] at hseg
    exact Or.inl (hseg ▸ hp)

theorem foldl_highlightStep_mark (canon : Char → Char) (tokens : List Str) :
    ∀ (parts : List Part) (seg : Str),
    Part.mark seg ∈ tokens.foldl (fun parts t => highlightStep canon t parts) parts →
    Part.mark seg ∈ parts ∨ ∃ t ∈ tokens, seg.map canon = t.map canon := by
  induction tokens with
  | nil => intro parts seg h; exact Or.inl h
  | cons t tokens ih =>
    intro parts seg h
    rw [List.foldl_cons] at h
    rcases ih _ _ h with h | ⟨u, hu, hseg⟩
    · rcases highlightStep_mark canon t parts seg h with h | h
      · exact Or.inl h
      · exact Or.inr ⟨t, List.mem_cons_self _ _, h⟩
    · exact Or.inr ⟨u, List.mem_cons_of_mem _ hu, hseg⟩

/-- A part is a stretch of the text the parts carry. -/
theorem content_infix_of_mem {p : Part} {parts : List Part} (h : p ∈ parts) :
    p.content <:+: parts.flatMap Part.content := by
  obtain ⟨l1, l2, rfl⟩ := List.append_of_mem h
  exact ⟨l1.flatMap Part.content, l2.flatMap Part.content, by simp⟩

/-- C9: highlighting cannot inject markup.  Removing the `<mark>` and
`</mark>` markers from `highlight text tokens` leaves exactly
`escapeHTML text`, which holds neither `<` nor `>`; the parts carry the text
itself; every marked segment is a stretch of the text that equals one of the
tokens character by character up to the case folding `canon` of the flag `i`;
and with no token the result is `escapeHTML text`.  This holds for every list
of tokens, the non-empty tokens of `tokenize` among them. -/
theorem C9_highlight_escapes (canon : Char → Char) (text : Option Str) (tokens : List Str) :
    stripMarks (highlight canon text tokens) = escapeHTML (text.getD []) ∧
    '<' ∉ escapeHTML (text.getD []) ∧ '>' ∉ escapeHTML (text.getD []) ∧
    (highlightParts canon (text.getD []) tokens).flatMap Part.content = text.getD [] ∧
    (∀ seg, Part.mark seg ∈ highlightParts canon (text.getD []) tokens →
      seg <:+: text.getD [] ∧ ∃ t ∈ tokens, seg.map canon = t.map canon) ∧
    highlight canon text [] = escapeHTML (text.getD []) := by
  refine ⟨?_, lt_not_mem_escapeHTML _, gt_not_mem_escapeHTML _,
    highlightParts_content canon _ _, ?_, rfl⟩
  · unfold highlight
    simp only []
    split_ifs
    · have h := stripMarks_append_of_no_lt _ [] (lt_not_mem_escapeHTML (text.getD []))
      rwa [List.append_nil, stripMarks_nil, List.append_nil] at h
    · rw [stripMarks_render, highlightParts_content canon]
  · intro seg h
    refine ⟨?_, ?_⟩
    · have := content_infix_of_mem h
      rwa [highlightParts_content canon] at this
    · rcases foldl_highlightStep_mark canon tokens _ seg h with h | h
      · exact absurd h (by simp)
      · exact h

/-! ### Start-up -/

theorem uniq_nodup {α : Type} [DecidableEq α] : ∀ l : List α, (uniq l).Nodup := by
  intro l
  induction l with
  | nil => exact List.nodup_nil
  | cons x l ih =>
    rw [uniq, List.nodup_cons]
    refine ⟨?_, ih.filter _⟩
    intro h
    have := (List.mem_filter.mp h).2
    simp at this

theorem uniq_uniq {α : Type} [DecidableEq α] (l : List α) : uniq (uniq l) = uniq l :=
  uniq_of_nodup _ (uniq_nodup l)

theorem orDefault_ne_nil (x : Option Str) {d : Str} (hd : d ≠ []) : orDefault x d ≠ [] := by
  unfold orDefault
  cases x with
  | none => exact hd
  | some s =>
    cases s with
    | nil => exact hd
    | cons a s => simp

theorem orDefault_idem (x : Option Str) {d : Str} (hd : d ≠ []) :
    orDefault (some (orDefault x d)) d = orDefault x d :=
  orDefault_some_of_ne_nil (orDefault_ne_nil x hd)

theorem orDefault_nil_idem (x : Option Str) :
    orDefault (some (orDefault x [])) [] = orDefault x [] := by
  cases x with
  | none => rfl
  | some s => cases s <;> rfl

/-- The page read from the URL is `Infinity` or an integer of at least 1. -/
theorem readPage_pos (v : Option Str) :
    readPage v = JSNat.infinity ∨ ∃ n, 1 ≤ n ∧ readPage v = JSNat.finite n := by
  unfold readPage
  cases parseInt (orDefault v "1".toList) with
  | nan => exact Or.inr ⟨1, Nat.le_refl 1, rfl⟩
  | number negative magnitude =>
    simp only []
    split_ifs with h0 hneg
    · exact Or.inr ⟨1, Nat.le_refl 1, rfl⟩
    · exact Or.inr ⟨1, Nat.le_refl 1, rfl⟩
    · cases magnitude with
      | infinity => exact Or.inl rfl
      | finite n =>
        refine Or.inr ⟨n, ?_, rfl⟩
        have hn : n ≠ 0 := fun e => h0 (by rw [e]; rfl)
        omega

theorem readPage_ne_zero (v : Option Str) : readPage v ≠ 0 := by
  intro h
  rcases readPage_pos v with h' | ⟨n, hn, h'⟩
  · rw [h'] at h
    exact JSNat.noConfusion h
  · rw [h'] at h
    have : n = 0 := JSNat.finite.inj (show JSNat.finite n = JSNat.finite 0 from h)
    omega

/-- Reading the URL gives a state that the normalisation of `init` leaves as
it is. -/
theorem normalize_readURLState (p : Params) :
    ({ q := orDefault (some (readURLState p).q) [],
       chips := uniq (readURLState p).chips,
       sort := orDefault (some (readURLState p).sort) "name".toList,
       avail := orDefault (some (readURLState p).avail) "all".toList,
       favOnly := (readURLState p).favOnly,
       page := if (readURLState p).page = 0 then 1 else (readURLState p).page } : UIState) =
      readURLState p := by
  have hp : readPage (paramsGet p "page".toList) ≠ 0 := readPage_ne_zero _
  simp only [readURLState, orDefault_nil_idem, uniq_uniq,
    orDefault_idem _ (show ("name".toList : Str) ≠ [] by decide),
    orDefault_idem _ (show ("all".toList : Str) ≠ [] by decide), if_neg hp]

theorem hasUrlFilters_iff (u : UIState) : hasUrlFilters u = true ↔ u ≠ defaultState := by
  obtain ⟨q, chips, sort, avail, favOnly, page⟩ := u
  simp only [hasUrlFilters, defaultState, ne_eq, UIState.mk.injEq, Bool.or_eq_true,
    Bool.not_eq_true', List.isEmpty_eq_false, bne_iff_ne, List.length_eq_zero]
  cases favOnly <;> tauto

/-- What `init` starts with when the URL state is the default state and an
item is stored: the stored fields, a missing one replaced by its default. -/
theorem init_of_stored (p : Params) (r : StoredState) (h : readURLState p = defaultState) :
    init p (some r) =
      { q := orDefault r.q [],
        chips := uniq (r.chips.getD []),
        sort := orDefault r.sort "name".toList,
        avail := orDefault r.avail "all".toList,
        favOnly := r.favOnly.getD false,
        page := 1 } := by
  have hf : ¬ hasUrlFilters (readURLState p) = true := fun e =>
    (hasUrlFilters_iff _).mp e h
  unfold init
  simp only []
  rw [if_neg hf]
  simp only [loadLocalState, Option.getD_some, uniq_uniq, orDefault_nil_idem,
    orDefault_idem _ (show ("name".toList : Str) ≠ [] by decide),
    orDefault_idem _ (show ("all".toList : Str) ≠ [] by decide)]
  rfl

/-- C10: load precedence in `init`.  When the state decoded from the URL
differs from the default state in some field, the initial state is the URL
state.  Otherwise, when an item is stored, the initial state has the stored
search text, chips, sort, availability filter and favourites flag (a missing
one replaced by its default) and page 1; in particular a state saved by
`saveLocalState` comes back with page 1.  Otherwise the initial state is the
default state. -/
theorem C10_init_precedence (p : Params) (raw : Option StoredState) :
    (readURLState p ≠ defaultState → init p raw = readURLState p) ∧
    (readURLState p = defaultState → ∀ r : StoredState, raw = some r →
      init p raw =
        { q := orDefault r.q [],
          chips := uniq (r.chips.getD []),
          sort := orDefault r.sort "name".toList,
          avail := orDefault r.avail "all".toList,
          favOnly := r.favOnly.getD false,
          page := 1 }) ∧
    (readURLState p = defaultState → ∀ st : UIState,
      st.chips.Nodup → st.sort ≠ [] → st.avail ≠ [] → raw = some (saveLocalState st) →
      init p raw = { st with page := 1 }) ∧
    (readURLState p = defaultState → raw = none → init p raw = defaultState) ∧
    defaultState =
      { q := [], chips := [], sort := "name".toList, avail := "all".toList,
        favOnly := false, page := 1 } := by
  refine ⟨fun h => ?_, fun h r hr => ?_, fun h st hnd hs ha hr => ?_, fun h hr => ?_, rfl⟩
  · unfold init
    simp only []
    rw [if_pos ((hasUrlFilters_iff _).mpr h)]
    exact normalize_readURLState p
  · rw [hr]
    exact init_of_stored p r h
  · rw [hr, init_of_stored p _ h]
    obtain ⟨q, chips, sort, avail, favOnly, page⟩ := st
    simp only at hnd hs ha
    simp only [saveLocalState, Option.getD_some, uniq_of_nodup _ hnd,
      orDefault_some_of_ne_nil hs, orDefault_some_of_ne_nil ha, orDefault_nil_idem]
    cases q <;> rfl
  · have hf : ¬ hasUrlFilters (readURLState p) = true := fun e =>
      (hasUrlFilters_iff _).mp e h
    rw [hr]
    unfold init
    simp only []
    rw [if_neg hf]
    simp only [loadLocalState, Option.getD_none]
    rw [normalize_readURLState]
    exact h

/-- C10 on a URL that carries only default values, with a stored search text
and sort mode: the stored state is taken. -/
theorem C10_init_precedence_witness :
    init [("sort".toList, "name".toList), ("avail".toList, "all".toList),
        ("page".toList, "1".toList)]
      (some { q := some "stored".toList, sort := some "year".toList }) =
      { q := "stored".toList, chips := [], sort := "year".toList, avail := "all".toList,
        favOnly := false, page := 1 } :=
  (C10_init_precedence _ _).2.1 (by decide) _ rfl

/-! ### Reachable states -/

theorem step_avail (st : UIState) (e : Event) :
    (step st e).avail = st.avail ∨ (step st e).avail ∈ availValues := by
  cases e with
  | quickFilterClick val =>
    right
    show val.val ∈ availValues
    cases val <;> decide
  | clear =>
    right
    show ("all".toList : Str) ∈ availValues
    decide
  | searchInput _ => left; rfl
  | sortChange _ => left; rfl
  | chipClick _ => left; rfl
  | favOnlyToggle => left; rfl
  | favoriteClick _ => left; rfl
  | loadMore => left; rfl

theorem foldl_step_avail (events : List Event) : ∀ st : UIState,
    (events.foldl step st).avail = st.avail ∨ (events.foldl step st).avail ∈ availValues := by
  induction events with
  | nil => intro st; exact Or.inl rfl
  | cons e events ih =>
    intro st
    rw [List.foldl_cons]
    rcases ih (step st e) with h | h
    · rcases step_avail st e with h' | h'
      · exact Or.inl (h.trans h')
      · exact Or.inr (h ▸ h')
    · exact Or.inr h

/-- C11 at a failing input: the availability value of the URL, or of the
stored state, is taken as it is, so `?avail=foo` starts the page with
`state.avail = "foo"`, outside the four values, and the events that do not
touch the availability filter keep it there.  What does hold: an event either
leaves `state.avail` as it is or sets it to one of the four values, so after
any events it is the initial value or one of the four. -/
theorem C11_avail_not_validated :
    (init [("avail".toList, "foo".toList)] none).avail = "foo".toList ∧
    (init [("avail".toList, "foo".toList)] none).avail ∉ availValues ∧
    (init [] (some { avail := some "foo".toList })).avail ∉ availValues ∧
    (run [("avail".toList, "foo".toList)] none
      [Event.searchInput "ai".toList, Event.loadMore, Event.favOnlyToggle]).avail ∉
        availValues ∧
    (∀ (p : Params) (raw : Option StoredState) (events : List Event),
      (run p raw events).avail = (init p raw).avail ∨
        (run p raw events).avail ∈ availValues) := by
  refine ⟨by decide, by decide, by decide, by decide, ?_⟩
  intro p raw events
  exact foldl_step_avail events (init p raw)

theorem loadLocalState_page (raw : Option StoredState) (s : UIState)
    (h : loadLocalState raw = some s) : s.page = 1 := by
  cases raw with
  | none => simp [loadLocalState] at h
  | some r =>
    simp only [loadLocalState, Option.some.injEq] at h
    rw [← h]

/-- The page set up by `init` is `Infinity` or an integer of at least 1. -/
theorem init_page_pos (p : Params) (raw : Option StoredState) :
    (init p raw).page = JSNat.infinity ∨ ∃ n, 1 ≤ n ∧ (init p raw).page = JSNat.finite n := by
  have hu : (readURLState p).page = JSNat.infinity ∨
      ∃ n, 1 ≤ n ∧ (readURLState p).page = JSNat.finite n := readPage_pos _
  have hseed : ∀ seed : UIState,
      (seed.page = JSNat.infinity ∨ ∃ n, 1 ≤ n ∧ seed.page = JSNat.finite n) →
      ((if seed.page = 0 then (1 : JSNat) else seed.page) = JSNat.infinity ∨
        ∃ n, 1 ≤ n ∧ (if seed.page = 0 then (1 : JSNat) else seed.page) = JSNat.finite n) := by
    intro seed h
    split_ifs
    · exact Or.inr ⟨1, Nat.le_refl 1, rfl⟩
    · exact h
  unfold init
  simp only []
  apply hseed
  split_ifs
  · exact hu
  · cases raw with
    | none => exact hu
    | some r => exact Or.inr ⟨1, Nat.le_refl 1, rfl⟩

theorem step_page (st : UIState) (e : Event) :
    (step st e).page = if e = Event.loadMore then st.page.addOne else 1 := by
  cases e <;> simp [step, toggleFavOnly, loadMore, clearFilters]

theorem foldl_step_page_pos (events : List Event) : ∀ st : UIState,
    (st.page = JSNat.infinity ∨ ∃ n, 1 ≤ n ∧ st.page = JSNat.finite n) →
    ((events.foldl step st).page = JSNat.infinity ∨
      ∃ n, 1 ≤ n ∧ (events.foldl step st).page = JSNat.finite n) := by
  induction events with
  | nil => intro st h; exact h
  | cons e events ih =>
    intro st h
    rw [List.foldl_cons]
    apply ih
    rw [step_page]
    split_ifs
    · rcases h with h | ⟨n, hn, h⟩
      · exact Or.inl (by rw [h]; rfl)
      · exact Or.inr ⟨n + 1, by omega, by rw [h]; rfl⟩
    · exact Or.inr ⟨1, Nat.le_refl 1, rfl⟩

set_option maxRecDepth 100000 in
/-- C12 as stated fails: a page value of 400 digits in the URL is read as
`Infinity`, which is not an integer, and "Load more" leaves it there; a page
value of `2^53 + 1` is read as `2^53`. -/
theorem C12_counterexample :
    (init [("page".toList, List.replicate 400 '9')] none).page = JSNat.infinity ∧
    (run [("page".toList, List.replicate 400 '9')] none [Event.loadMore]).page =
      JSNat.infinity ∧
    (readURLState [("page".toList, "9007199254740993".toList)]).page =
      JSNat.finite 9007199254740992 := by
  decide

/-- C12 (amended): in every state reached from `init`, for any query
parameters and any stored state, after any sequence of events, `state.page` is
`Infinity` or an integer of at least 1; `readURLState` returns such a page,
`loadLocalState` returns page 1, "Load more" adds 1 to a page below `2^53` and
leaves `Infinity`, and every other event sets the page to 1. -/
theorem C12_page_invariant :
    (∀ (p : Params) (raw : Option StoredState) (events : List Event),
      (run p raw events).page = JSNat.infinity ∨
        ∃ n, 1 ≤ n ∧ (run p raw events).page = JSNat.finite n) ∧
    (∀ p : Params, (readURLState p).page = JSNat.infinity ∨
      ∃ n, 1 ≤ n ∧ (readURLState p).page = JSNat.finite n) ∧
    (∀ (raw : Option StoredState) (s : UIState), loadLocalState raw = some s → s.page = 1) ∧
    (∀ (st : UIState) (n : Nat), st.page = JSNat.finite n → n < 2 ^ 53 →
      (step st Event.loadMore).page = JSNat.finite (n + 1)) ∧
    (∀ st : UIState, st.page = JSNat.infinity →
      (step st Event.loadMore).page = JSNat.infinity) ∧
    (∀ (st : UIState) (e : Event), e ≠ Event.loadMore → (step st e).page = 1) := by
  refine ⟨fun p raw events => foldl_step_page_pos events _ (init_page_pos p raw),
    fun p => readPage_pos _, loadLocalState_page, fun st n h _ => ?_, fun st h => ?_,
    fun st e he => ?_⟩
  · rw [step_page, if_pos rfl, h]
    rfl
  · rw [step_page, if_pos rfl, h]
    rfl
  · rw [step_page, if_neg he]

/-! ### The example of the specification -/

/-- With favourites-only off the favourites set plays no part in the filter. -/
theorem filtered_favs_irrelevant (lower : Str → Str) (st : UIState) (favs : List Nat) (mentors : List Mentor)
    (h : st.favOnly = false) : filtered lower st favs mentors = filtered lower st [] mentors := by
  simp only [filtered]
  congr 1
  funext m
  simp [«matches», favOk, h]

/-- C13: the example of the specification.  Over the mentors Ann Lee
(id 1, interest AI, Available) and Bo Park (id 2, interest Robotics, Limited),
the search text `an` shows exactly Ann Lee, the availability filter `limited`
shows exactly Bo Park, and the cleared state, which is the default state,
shows both in the order Ann Lee, Bo Park under the name sort, for a collation
that does not put "Ann Lee" after "Bo Park".  The text of the example is
ASCII and is lower-cased with `asciiLowerCase`. -/
theorem C13_spec_example (lc : Str → Str → Int) (favs : List Nat)
    (hlc : lc "Ann Lee".toList "Bo Park".toList ≤ 0) :
    pageList asciiLowerCase lc { q := "an".toList } favs [ann, bo] = [ann] ∧
    pageList asciiLowerCase lc { avail := "limited".toList } favs [ann, bo] = [bo] ∧
    pageList asciiLowerCase lc defaultState favs [ann, bo] = [ann, bo] ∧
    (∀ st : UIState, step st Event.clear = defaultState) ∧
    ann.id = 1 ∧ bo.id = 2 := by
  have h1 : filtered asciiLowerCase { q := "an".toList } favs [ann, bo] = [ann] := by
    rw [filtered_favs_irrelevant _ _ _ _ rfl]; decide
  have h2 : filtered asciiLowerCase { avail := "limited".toList } favs [ann, bo] = [bo] := by
    rw [filtered_favs_irrelevant _ _ _ _ rfl]; decide
  have h3 : filtered asciiLowerCase defaultState favs [ann, bo] = [ann, bo] := by
    rw [filtered_favs_irrelevant _ _ _ _ rfl]; decide
  refine ⟨?_, ?_, ?_, fun st => rfl, rfl, rfl⟩
  · rw [pageList, sorted, h1]
    simp only [sortMentors, jsSort, orderedInsert, PAGE_SIZE, ite_self]
    rfl
  · rw [pageList, sorted, h2]
    simp only [sortMentors, jsSort, orderedInsert, PAGE_SIZE, ite_self]
    rfl
  · have hc : compareName lc ann bo ≤ 0 := hlc
    have hs : sortMentors lc defaultState [ann, bo] = [ann, bo] := by
      have e : sortMentors lc defaultState [ann, bo] = jsSort (compareName lc) [ann, bo] := by
        unfold sortMentors
        exact if_pos rfl
      rw [e, jsSort, jsSort, jsSort, orderedInsert, orderedInsert, if_pos hc]
    rw [pageList, sorted, h3, hs]
    rfl

/-- C13 with code-point order as the collation and no favourites. -/
theorem C13_spec_example_witness :
    pageList asciiLowerCase codePointCompare { q := "an".toList } [] [ann, bo] = [ann] ∧
    pageList asciiLowerCase codePointCompare { avail := "limited".toList } [] [ann, bo] = [bo] ∧
    pageList asciiLowerCase codePointCompare defaultState [] [ann, bo] = [ann, bo] ∧
    (∀ st : UIState, step st Event.clear = defaultState) ∧
    ann.id = 1 ∧ bo.id = 2 :=
  C13_spec_example codePointCompare [] (by decide)

end MentorPortal
